import Mathlib

/-!
# Barter Charter — verification of the simulation engine

Shallow embedding of the Barter Charter game engine (`game_engine.py`) and
the round-close guard of its HTTP layer (`server.py`), with theorems
settling the frozen claims about it.

Modelling conventions:
* Python `float` arithmetic is modelled as exact rational arithmetic (`ℚ`);
  decimal literals of the source (`0.85`, `0.20`, …) become the
  corresponding exact rationals.
* Python `int` is `ℤ`.  Python's `//` on ints is `Int.fdiv` (floor
  division); `//` on floats is `Int.floor` of the rational quotient;
  `int(...)` on a float truncates toward zero (`pyTrunc`); `round(...)`
  rounds half to even (`pyRound`).
* Python `dict`s are insertion-ordered association lists; `d.get(k, 0)` is
  `alGetD`, `d[k] = v` is `alSet` (updates the existing entry in place,
  else appends).  Mutation of objects held in dicts is modelled by
  rebuilding the list, in program order, so aliasing (`teams[a]` and
  `teams[b]` being the same object when `a = b`) behaves as in Python.
* A raised `ValueError` is an error value returned next to the state the
  mutation reached, because the Python caller catches the exception and
  keeps using the same (possibly partially mutated) objects.
* The process-wide `random` module is an abstract deterministic generator
  threaded explicitly: a state type, a `seed` function of the generator's
  seed inputs, and a `sample` function with `random.sample`'s contract.
-/

namespace Barter

/-! ## Python-arithmetic helpers -/

/-- Python `round` on a rational: round half to even (banker's rounding). -/
def pyRound (q : ℚ) : ℤ :=
  let f := ⌊q⌋
  let frac := q - f
  if frac < 1/2 then f
  else if 1/2 < frac then f + 1
  else if f % 2 = 0 then f else f + 1

/-- Python `int(...)` on a rational: truncation toward zero. -/
def pyTrunc (q : ℚ) : ℤ := q.num / (q.den : ℤ)

/-! ## Association lists (Python dicts) -/

/-- Python `d.get(k, d0)`: value at the first entry with key `k`, else `d0`. -/
def alGetD {α : Type} : List (String × α) → String → α → α
  | [], _, d0 => d0
  | p :: t, k, d0 => if p.1 = k then p.2 else alGetD t k d0

/-- Python `d[k] = v` on a dict (keys unique): rewrite the entry keyed `k`
in place, else append a new entry. -/
def alSet {α : Type} : List (String × α) → String → α → List (String × α)
  | [], k, v => [(k, v)]
  | p :: t, k, v => if p.1 = k then (k, v) :: t else p :: alSet t k v

/-! ## Data model (`game_engine.py` dataclasses) -/

/-- One commodity: name, derived rupee price, ratio versus the base
commodity, holding band (`min_units`/`max_units`) and initial-allocation
band (set by the portfolio generator; Python attaches the `alloc_*` fields
dynamically, default 0 here). -/
structure Commodity where
  name : String
  price : ℚ
  base_ratio : ℤ
  min_units : ℤ := 0
  max_units : ℤ := 0
  alloc_min_units : ℤ := 0
  alloc_max_units : ℤ := 0
  deriving Repr, DecidableEq

/-- A team: name and holdings (commodity name → unit count). -/
structure Team where
  name : String
  holdings : List (String × ℤ) := []
  deriving Repr, DecidableEq

/-- One trade between two teams in a specific round. -/
structure Trade where
  round_no : ℤ
  from_team : String
  to_team : String
  give : List (String × ℤ)
  receive : List (String × ℤ)
  deriving Repr, DecidableEq

/-- All game state (`GameState`).  `rounds` holds `(round_no, news)` pairs;
`round_open_ratios` is the per-round ratio snapshot taken by
`start_round`. -/
structure GameState where
  commodities : List Commodity := []
  teams : List Team := []
  base_commodity : String := ""
  trades : List Trade := []
  rounds : List (ℤ × String) := []
  current_round : ℤ := 0
  penalties_rs : List (String × ℚ) := []
  round_open_ratios : List (String × ℤ) := []
  deriving Repr, DecidableEq

/-- Hypothetical rupee price of one unit of the base commodity
(`BASE_PRICE_RS = 1000.0`). -/
def BASE_PRICE_RS : ℚ := 1000

/-- Lookup of a commodity by name in the registry (Python `commodities[n]`
/ `commodities.get(n)`). -/
def findCommodity (cs : List Commodity) (n : String) : Option Commodity :=
  cs.find? (fun c => c.name = n)

/-- The ratio recorded for the named commodity, 0 when absent (the absent
case never arises where this is used). -/
def ratioOf (cs : List Commodity) (n : String) : ℤ :=
  ((findCommodity cs n).map (fun c => c.base_ratio)).getD 0

/-- The price recorded for the named commodity, 0 when absent. -/
def priceOf (cs : List Commodity) (n : String) : ℚ :=
  ((findCommodity cs n).map (fun c => c.price)).getD 0

/-- `Team.value_rs`: total portfolio value in rupees, summed over the
commodity registry with `holdings.get(cname, 0)`. -/
def value_rs (t : Team) (cs : List Commodity) : ℚ :=
  (cs.map (fun c => ((alGetD t.holdings c.name 0 : ℤ) : ℚ) * c.price)).sum

/-! ## Pricing (`update_prices_from_ratios`) -/

/-- `update_prices_from_ratios`: force the base commodity to ratio 1 and
price `BASE_PRICE_RS`; give every other commodity price
`BASE_PRICE_RS / ratio`, flooring a non-positive ratio to 1 first.  A
session with no base commodity set is returned unchanged. -/
def update_prices_from_ratios (gs : GameState) : GameState :=
  if gs.base_commodity = "" then gs
  else
    { gs with commodities := gs.commodities.map (fun c =>
        if c.name = gs.base_commodity then
          { c with base_ratio := 1, price := BASE_PRICE_RS }
        else
          let r := if c.base_ratio ≤ 0 then 1 else c.base_ratio
          { c with base_ratio := r, price := BASE_PRICE_RS / (r : ℚ) }) }

/-! ## Trade validation and application (`apply_trade`, `record_trade`)

Python raises `ValueError` (or `KeyError` for a missing team) with a
message; the distinct messages are modelled as the kinds below.  Because
`apply_trade` mutates `Team` objects in place and the exception propagates
without rollback, every function here returns the state the mutation had
reached together with the error, and the caller keeps that state. -/

/-- The distinct errors trade processing can raise. -/
inductive TradeErr where
  | noActiveRound
  | duplicatePair
  | negativeQty
  | insufficient (team commodity : String)
  | missingTeam
  deriving Repr, DecidableEq

/-- Holding of commodity `c` of the (first) team named `n`; 0 when the team
or the entry is absent. -/
def getTeamHolding (ts : List Team) (n c : String) : ℤ :=
  ((ts.find? (fun t => t.name = n)).map (fun t => alGetD t.holdings c 0)).getD 0

/-- Write holding `v` of commodity `c` on the team named `n` (in-place
object mutation: every other team keeps its record). -/
def setTeamHolding (ts : List Team) (n c : String) (v : ℤ) : List Team :=
  ts.map (fun t => if t.name = n then { t with holdings := alSet t.holdings c v } else t)

/-- First loop of `apply_trade`: `from_team` loses each `give` entry,
`to_team` gains it, checking sign and sufficiency per entry *as it goes* —
an error stops the loop but keeps the transfers already made. -/
def giveLoop (fromT toT : String) :
    List (String × ℤ) → List Team → List Team × Option TradeErr
  | [], ts => (ts, none)
  | (c, q) :: rest, ts =>
    if q < 0 then (ts, some .negativeQty)
    else if getTeamHolding ts fromT c < q then (ts, some (.insufficient fromT c))
    else
      let ts1 := setTeamHolding ts fromT c (getTeamHolding ts fromT c - q)
      let ts2 := setTeamHolding ts1 toT c (getTeamHolding ts1 toT c + q)
      giveLoop fromT toT rest ts2

/-- Second loop of `apply_trade`: `to_team` loses each `receive` entry,
`from_team` gains it, with the same per-entry checks. -/
def receiveLoop (fromT toT : String) :
    List (String × ℤ) → List Team → List Team × Option TradeErr
  | [], ts => (ts, none)
  | (c, q) :: rest, ts =>
    if q < 0 then (ts, some .negativeQty)
    else if getTeamHolding ts toT c < q then (ts, some (.insufficient toT c))
    else
      let ts1 := setTeamHolding ts toT c (getTeamHolding ts toT c - q)
      let ts2 := setTeamHolding ts1 fromT c (getTeamHolding ts1 fromT c + q)
      receiveLoop fromT toT rest ts2

/-- `apply_trade`: fetch both teams (a missing one fails before any
mutation), run the give loop, then the receive loop. -/
def apply_trade (tr : Trade) (ts : List Team) : List Team × Option TradeErr :=
  if (ts.find? (fun t => t.name = tr.from_team)).isNone ∨
     (ts.find? (fun t => t.name = tr.to_team)).isNone then
    (ts, some .missingTeam)
  else
    match giveLoop tr.from_team tr.to_team tr.give ts with
    | (ts1, some e) => (ts1, some e)
    | (ts1, none) => receiveLoop tr.from_team tr.to_team tr.receive ts1

/-- Python set equality of the two-element sets built from each pair of
team names: order-independent pair equality. -/
def samePair (a b c d : String) : Bool :=
  (a = c ∧ b = d) ∨ (a = d ∧ b = c)

/-- `GameState.record_trade`: reject at round 0; reject a second trade this
round between the same unordered pair; otherwise apply the trade and, on
success, append it to the journal.  An error from `apply_trade` keeps the
holdings it reached (no rollback) and appends nothing. -/
def record_trade (gs : GameState) (fromT toT : String)
    (give receive : List (String × ℤ)) : GameState × Option TradeErr :=
  if gs.current_round = 0 then (gs, some .noActiveRound)
  else if gs.trades.any (fun tr => tr.round_no = gs.current_round ∧
      samePair tr.from_team tr.to_team fromT toT) then
    (gs, some .duplicatePair)
  else
    let tr : Trade := ⟨gs.current_round, fromT, toT, give, receive⟩
    match apply_trade tr gs.teams with
    | (ts, some e) => ({ gs with teams := ts }, some e)
    | (ts, none) => ({ gs with teams := ts, trades := gs.trades ++ [tr] }, none)

/-- `GameState.start_round`: bump the round counter, log the round, and
snapshot every commodity's ratio as the circuit-breaker baseline. -/
def start_round (gs : GameState) (news : String) : GameState :=
  { gs with
    current_round := gs.current_round + 1,
    rounds := gs.rounds ++ [(gs.current_round + 1, news)],
    round_open_ratios := gs.commodities.map (fun c => (c.name, c.base_ratio)) }

/-! ## Demand and the circuit-breaker ratio update -/

/-- `compute_net_demand`: per commodity, received minus given quantities
over the given round's trades, starting from 0 for every registered
commodity (trades may add further keys via `net.get`). -/
def compute_net_demand (gs : GameState) (round_no : ℤ) : List (String × ℚ) :=
  gs.trades.foldl (fun net tr =>
    if tr.round_no ≠ round_no then net
    else
      let net1 := tr.give.foldl
        (fun n p => alSet n p.1 (alGetD n p.1 0 - (p.2 : ℚ))) net
      tr.receive.foldl
        (fun n p => alSet n p.1 (alGetD n p.1 0 + (p.2 : ℚ))) net1)
    (gs.commodities.map (fun c => (c.name, (0 : ℚ))))

/-- Python's `if x < 1: x = 1` flooring pattern. -/
def floorTo1 (x : ℤ) : ℤ := if x < 1 then 1 else x

/-- Python's falsy-default idiom `s or 1.0` on a float. -/
def orOne (s : ℚ) : ℚ := if s = 0 then 1 else s

/-- Loop body of `update_ratios_auto` for one commodity: the base
commodity is reset to ratio 1; any other ratio moves by
`1 - sensitivity * delta` (floored to 0.1) against its demand share, is
rounded and floored to 1, and is then clamped into the circuit band
`[lower, upper]` around the round-open snapshot ratio (itself floored
to 1, defaulting to the current ratio when the snapshot lacks the key). -/
def ratioStep (gs : GameState) (sensitivity circuit_pct : ℚ)
    (net : List (String × ℚ)) (total_abs : ℚ) (c : Commodity) : Commodity :=
  if c.name = gs.base_commodity then { c with base_ratio := 1 }
  else
    let old_ratio : ℤ := max 1 c.base_ratio
    let delta := alGetD net c.name 0 / total_abs
    let factor0 := 1 - sensitivity * delta
    let factor := if factor0 ≤ 0 then 0.1 else factor0
    let proposed0 := pyRound ((old_ratio : ℚ) * factor)
    let proposed := floorTo1 proposed0
    let openr0 := alGetD gs.round_open_ratios c.name old_ratio
    let openr := floorTo1 openr0
    let lower := max 1 (pyRound ((openr : ℚ) * (1 - circuit_pct)))
    let upper := max (lower + 1) (pyRound ((openr : ℚ) * (1 + circuit_pct)))
    { c with base_ratio := min (max proposed lower) upper }

/-- Final base enforcement of `update_ratios_auto` (the dict-membership
guarded assignment at the end of the function). -/
def baseReset (base : String) (c : Commodity) : Commodity :=
  if c.name = base then { c with base_ratio := 1 } else c

/-- `update_ratios_auto`: move each non-base ratio against its share of net
demand, then clamp it into the per-round circuit-breaker band around the
round-open snapshot; the base commodity's ratio is forced back to 1.  A
session at round 0 is returned unchanged.  `sensitivity` defaults to 0.5
and `circuit_pct` to 0.20 at the call site (`server.py`). -/
def update_ratios_auto (gs : GameState) (sensitivity circuit_pct : ℚ) :
    GameState :=
  if gs.current_round = 0 then gs
  else
    let net := compute_net_demand gs gs.current_round
    let total_abs := orOne (net.map (fun p => |p.2|)).sum
    let cs := gs.commodities.map (ratioStep gs sensitivity circuit_pct net total_abs)
    let cs2 := if cs.any (fun c => c.name = gs.base_commodity) then
        cs.map (baseReset gs.base_commodity)
      else cs
    { gs with commodities := cs2 }

/-! ## Penalties (`teams_with_trades_in_round`, `check_min_max_violation`,
`apply_round_penalties`) -/

/-- Membership in `teams_with_trades_in_round`: the team appears as buyer
or seller in some trade of the round. -/
def teamTradedInRound (gs : GameState) (round_no : ℤ) (tname : String) : Bool :=
  gs.trades.any (fun tr => tr.round_no = round_no ∧
    (tr.from_team = tname ∨ tr.to_team = tname))

/-- `check_min_max_violation`: some commodity holding falls outside its
holding band; a zero bound is unconstrained (Python truthiness of the
bound). -/
def check_min_max_violation (gs : GameState) (t : Team) : Bool :=
  gs.commodities.any (fun c =>
    let qty := alGetD t.holdings c.name 0
    (c.min_units ≠ 0 ∧ qty < c.min_units) ∨
    (c.max_units ≠ 0 ∧ qty > c.max_units))

/-- Loop body of `apply_round_penalties` for one team: add `no_trade_rate`
times the team's current portfolio value if it appears in no trade of the
round, and — independently — `range_rate` times the same value if it
violates a holding band.  Both rates are 0.10 at the call site
(`server.py`). -/
def penaltyStep (gs : GameState) (round_no : ℤ)
    (no_trade_rate range_rate : ℚ) (pen : List (String × ℚ)) (t : Team) :
    List (String × ℚ) :=
  let value := value_rs t gs.commodities
  let pen1 :=
    if teamTradedInRound gs round_no t.name then pen
    else alSet pen t.name (alGetD pen t.name 0 + value * no_trade_rate)
  if check_min_max_violation gs t then
    alSet pen1 t.name (alGetD pen1 t.name 0 + value * range_rate)
  else pen1

/-- The fold of `apply_round_penalties` over the team ledger. -/
def apply_round_penalties (gs : GameState) (round_no : ℤ)
    (no_trade_rate range_rate : ℚ) : GameState :=
  let pen' := gs.teams.foldl (penaltyStep gs round_no no_trade_rate range_rate)
    gs.penalties_rs
  { gs with penalties_rs := pen' }

/-! ## The server's round-close guard (`server.py: end_round`)

The HTTP layer owns a module-level `ended_rounds` set and an Excel logger;
the logger's two calls at round close are abstracted as one appended event
per close.  Everything else `end_round` does to state is in the engine. -/

/-- Server-level state: the game state, the set of already-ended rounds,
and the sequence of rounds for which the Excel log was written. -/
structure ServerState where
  gs : GameState
  ended_rounds : List ℤ := []
  excel_log : List ℤ := []
  deriving Repr, DecidableEq

/-- The three outcomes of `POST /round/end`. -/
inductive EndRoundMsg where
  | noActiveRound
  | alreadyEnded (round_no : ℤ)
  | ended (round_no : ℤ)
  deriving Repr, DecidableEq

/-- `end_round`: error at round 0; a repeat call for an already-ended round
returns a message and changes nothing; otherwise apply penalties (rates
0.10), log, and remember the round as ended. -/
def end_round (s : ServerState) : ServerState × EndRoundMsg :=
  if s.gs.current_round = 0 then (s, .noActiveRound)
  else
    let r := s.gs.current_round
    if s.ended_rounds.contains r then (s, .alreadyEnded r)
    else
      let s' : ServerState :=
        { gs := apply_round_penalties s.gs r 0.1 0.1,
          ended_rounds := s.ended_rounds ++ [r],
          excel_log := s.excel_log ++ [r] }
      (s', .ended r)

/-! ## Initial portfolio generation
(`generate_initial_portfolios_with_ranges`)

The generator calls `random.seed(seed_key)` and `random.sample(...)` on the
process-wide `random` module.  That module is modelled as an abstract
deterministic generator: a state type, a `seed` function of the seed-key
components (the Python key is the f-string of the triple, injective in it),
and a `sample` function satisfying `random.sample`'s contract — when
`k ≤ pool.length`, the result has length `k` and is drawn from the pool
without replacement (a sub-multiset).  The generator state is threaded
explicitly; the generator overwrites whatever state the module had. -/

/-- A deterministic model of Python's `random` module, as used here. -/
structure RandomModule where
  St : Type
  seed : ℕ → ℕ → ℤ → St
  sample : St → List String → ℕ → List String × St
  sample_spec : ∀ st pool k, k ≤ pool.length →
    (sample st pool k).1.length = k ∧ List.Subperm (sample st pool k).1 pool

/-- Step 2 of the generator, for one commodity: attach the allocation band
(85%–115% of the per-commodity base target, in `r`-sized multiples) and the
holding band (70%–130%, likewise), where `r` is the ratio floored to 1. -/
def setBands (bte : ℚ) (c : Commodity) : Commodity :=
  let r : ℤ := max 1 c.base_ratio
  let units_target : ℚ := bte * (r : ℚ)
  let alloc_min_mult : ℤ := max 1 ⌊units_target * 0.85 / (r : ℚ)⌋
  let alloc_max_mult : ℤ := max (alloc_min_mult + 1) ⌊units_target * 1.15 / (r : ℚ)⌋
  let hold_min_mult : ℤ := max 1 ⌊units_target * 0.70 / (r : ℚ)⌋
  let hold_max_mult : ℤ := max (hold_min_mult + 1) ⌊units_target * 1.30 / (r : ℚ)⌋
  { c with
    alloc_min_units := alloc_min_mult * r,
    alloc_max_units := alloc_max_mult * r,
    min_units := hold_min_mult * r,
    max_units := hold_max_mult * r }

/-- Step 4, per-commodity bonus-slot capacity:
`(alloc_max_units - alloc_min_units) // base_ratio`. -/
def capacityOf (c : Commodity) : ℤ :=
  (c.alloc_max_units - c.alloc_min_units).fdiv c.base_ratio

/-- Step 4: the weighted slot pool — each commodity name once per bonus
slot. -/
def baseUnitSlots (cs : List Commodity) : List String :=
  (cs.map (fun c =>
    if capacityOf c > 0 then List.replicate (capacityOf c).toNat c.name
    else [])).flatten

/-- Step 7, picks application: each drawn commodity name gains one
`base_ratio`-sized increment. -/
def applyPicks (cs : List Commodity) (picks : List String)
    (h : List (String × ℤ)) : List (String × ℤ) :=
  picks.foldl (fun h p => alSet h p (alGetD h p 0 + ratioOf cs p)) h

/-- Step 7, final safety clamp of every holding into the holding band (the
source reads the pre-clamp quantity once and runs the two comparisons on
it). -/
def clampHoldings (cs : List Commodity) (h : List (String × ℤ)) :
    List (String × ℤ) :=
  cs.foldl (fun h c =>
    let q := alGetD h c.name 0
    let q2 := if q > c.max_units then c.max_units
      else if q < c.min_units then c.min_units else q
    alSet h c.name q2) h

/-- Step 5–7 for one team: start from the per-commodity minimum
allocation; when there are bonus units and enough slots, draw
`K_extra` slots without replacement and add one increment per draw; then
clamp into the holding band. -/
def allocOne (R : RandomModule) (cs : List Commodity) (kextra : ℤ)
    (slots : List String) (rng : R.St) : List (String × ℤ) × R.St :=
  let h0 := cs.map (fun c => (c.name, c.alloc_min_units))
  let step :=
    if kextra > 0 ∧ (kextra : ℤ) ≤ (slots.length : ℤ) then
      (applyPicks cs (R.sample rng slots kextra.toNat).1 h0,
        (R.sample rng slots kextra.toNat).2)
    else (h0, rng)
  (clampHoldings cs step.1, step.2)

/-- The per-team loop of step 5–7, threading the random state in team
order. -/
def allocTeams (R : RandomModule) (cs : List Commodity) (kextra : ℤ)
    (slots : List String) : List Team → R.St → List Team × R.St
  | [], rng => ([], rng)
  | t :: ts, rng =>
    let pr := allocOne R cs kextra slots rng
    let rest := allocTeams R cs kextra slots ts pr.2
    ({ t with holdings := pr.1 } :: rest.1, rest.2)

/-- `generate_initial_portfolios_with_ranges`: validate the session, seed
the process-wide random source from (team count, commodity count,
truncated target), compute bands, choose the common base-unit value
`K_total`, distribute `K_extra` bonus increments per team, and return the
new state, the random state left behind, and the common portfolio value
`K_total * BASE_PRICE_RS`.  The three validation errors leave everything
unchanged. -/
def generate_initial_portfolios_with_ranges (R : RandomModule)
    (gs : GameState) (_rng : R.St) (target_value_hint : ℚ) :
    Except String (GameState × R.St × ℚ) :=
  if gs.commodities = [] then .error "No commodities defined."
  else if gs.base_commodity = "" then .error "Base commodity not set."
  else if gs.teams = [] then .error "No teams defined."
  else
    let N : ℕ := gs.commodities.length
    let rng1 := R.seed gs.teams.length N (pyTrunc target_value_hint)
    let S0 := pyRound (target_value_hint / BASE_PRICE_RS)
    let S : ℤ := if S0 < (N : ℤ) * 3 then (N : ℤ) * 3 else S0
    let bte : ℚ := (S : ℚ) / (N : ℚ)
    let cs2 := gs.commodities.map (setBands bte)
    let lower := (cs2.map (fun c =>
      c.alloc_min_units.fdiv (max 1 c.base_ratio))).sum
    let upper := (cs2.map (fun c =>
      c.alloc_max_units.fdiv (max 1 c.base_ratio))).sum
    let K_total : ℤ := if S < lower then lower else if S > upper then upper else S
    let slack_total := upper - lower
    let K_extra0 := K_total - lower
    let K_extra1 := if K_extra0 < 0 then 0 else K_extra0
    let K_extra2 := if K_extra1 > slack_total then slack_total else K_extra1
    let slots := baseUnitSlots cs2
    let K_extra := if slots = [] then 0 else K_extra2
    let res := allocTeams R cs2 K_extra slots gs.teams rng1
    .ok ({ gs with commodities := cs2, teams := res.1 }, res.2,
      (K_total : ℚ) * BASE_PRICE_RS)

/-! ## Concrete fixtures for witnesses -/

/-- Fixture commodity: the base, ratio 1, price 1000. -/
def cFixA : Commodity := { name := "A", price := 1000, base_ratio := 1 }

/-- Fixture commodity: ratio 4 versus base, price 250. -/
def cFixB : Commodity := { name := "B", price := 250, base_ratio := 4 }

/-- Fixture team with the two fixture commodities. -/
def teamFix (n : String) (hA hB : ℤ) : Team :=
  { name := n, holdings := [("A", hA), ("B", hB)] }

/-- Fixture session: two commodities, three teams, round 1 open, ratio
snapshot taken. -/
def gsFix : GameState :=
  { commodities := [cFixA, cFixB],
    teams := [teamFix "T1" 5 8, teamFix "T2" 6 16, teamFix "T3" 7 2],
    base_commodity := "A",
    trades := [],
    rounds := [(1, "news")],
    current_round := 1,
    penalties_rs := [],
    round_open_ratios := [("A", 1), ("B", 4)] }

/-- Fixture session before pricing: stale prices and a non-positive base
ratio, as the initializer may hand to `update_prices_from_ratios`. -/
def gsFixUnpriced : GameState :=
  { gsFix with commodities :=
      [{ cFixA with base_ratio := 0, price := 5 }, { cFixB with price := 77 }] }

/-- A small concrete instance of the random-module interface: seeding is a
function of the key triple and sampling takes a prefix of the pool. -/
def takeSampler : RandomModule where
  St := ℕ
  seed := fun a b c => a + b + c.toNat
  sample := fun st pool k => (pool.take k, st + 1)
  sample_spec := by
    intro st pool k hk
    constructor
    · rw [List.length_take]
      omega
    · exact (List.take_sublist k pool).subperm

/-- The commodity fields the allocation pipeline reads: name, ratio, and
the four band fields. -/
def commodityKey (c : Commodity) : String × ℤ × ℤ × ℤ × ℤ × ℤ :=
  (c.name, c.base_ratio, c.alloc_min_units, c.alloc_max_units,
    c.min_units, c.max_units)

/-- Fixture session with a single commodity and a single team, for
observing the generator. -/
def gsOne : GameState :=
  { commodities := [{ name := "A", price := 1000, base_ratio := 1 }],
    teams := [{ name := "T1" }],
    base_commodity := "A" }

/-- The holding the generator leaves a team with (0 when it fails). -/
def generatedHolding (R : RandomModule) (gs : GameState) (rng : R.St)
    (target : ℚ) (team c : String) : ℤ :=
  match generate_initial_portfolios_with_ranges R gs rng target with
  | .ok (gs', _, _) => getTeamHolding gs'.teams team c
  | .error _ => 0

/-- The process-wide random state the generator leaves behind (unchanged
when it fails before seeding). -/
def generatedRandState (R : RandomModule) (gs : GameState) (rng : R.St)
    (target : ℚ) : R.St :=
  match generate_initial_portfolios_with_ranges R gs rng target with
  | .ok (_, r, _) => r
  | .error _ => rng

/-- The journal invariant: any two trades of the same round involve
different unordered team pairs. -/
def pairwiseDistinctRounds (trades : List Trade) : Prop :=
  List.Pairwise (fun a b => a.round_no = b.round_no →
    samePair a.from_team a.to_team b.from_team b.to_team = false) trades

/-- The state shape `init_game` hands to the generator: non-empty
registry/ledger, base set, unique names, ratios at least 1, and prices
already derived from ratios. -/
def validForGenerator (gs : GameState) : Prop :=
  gs.commodities ≠ [] ∧ gs.base_commodity ≠ "" ∧ gs.teams ≠ [] ∧
  (gs.commodities.map (fun c => c.name)).Nodup ∧
  ∀ c ∈ gs.commodities,
    1 ≤ c.base_ratio ∧ c.price = BASE_PRICE_RS / (c.base_ratio : ℚ)

/-- The band characterization the generator establishes on its registry:
ratio at least 1, price derived from the ratio, and all four band fields
as shared multipliers times the ratio. -/
def bandChar (cs2 : List Commodity) (amin amax hmin hmax : ℤ) : Prop :=
  ∀ c ∈ cs2, 1 ≤ c.base_ratio ∧
    c.price = BASE_PRICE_RS / (c.base_ratio : ℚ) ∧
    c.alloc_min_units = amin * c.base_ratio ∧
    c.alloc_max_units = amax * c.base_ratio ∧
    c.min_units = hmin * c.base_ratio ∧
    c.max_units = hmax * c.base_ratio

/-!
# Theorems
-/

/-! ## Association-list laws -/

theorem alGetD_alSet_same {α : Type} (m : List (String × α)) (k : String)
    (v d0 : α) : alGetD (alSet m k v) k d0 = v := by
  induction m with
  | nil => simp [alSet, alGetD]
  | cons p t ih =>
    by_cases hp : p.1 = k
    · simp [alSet, alGetD, hp]
    · simp [alSet, alGetD, hp, ih]

theorem alGetD_alSet_other {α : Type} (m : List (String × α)) (k k' : String)
    (v d0 : α) (hne : k' ≠ k) : alGetD (alSet m k v) k' d0 = alGetD m k' d0 := by
  induction m with
  | nil => simp [alSet, alGetD, Ne.symm hne]
  | cons p t ih =>
    by_cases hp : p.1 = k
    · simp [alSet, alGetD, hp, Ne.symm hne]
    · by_cases hp' : p.1 = k'
      · simp [alSet, alGetD, hp, hp', hne]
      · simp [alSet, alGetD, hp, hp', ih]

/-- `find?` on a name predicate commutes with a name-preserving map. -/
theorem find?_name_map (cs : List Commodity) (f : Commodity → Commodity)
    (hf : ∀ c, (f c).name = c.name) (n : String) :
    (cs.map f).find? (fun c => c.name = n)
      = (cs.find? (fun c => c.name = n)).map f := by
  induction cs with
  | nil => simp
  | cons c t ih =>
    by_cases hc : c.name = n
    · simp [List.find?, hf, hc]
    · simp only [List.map_cons, List.find?]
      rw [show (decide ((f c).name = n)) = false from by simp [hf, hc],
        show (decide (c.name = n)) = false from by simp [hc]]
      exact ih

/-- `ratioOf` after a name-preserving rewrite of the registry. -/
theorem ratioOf_map (cs : List Commodity) (f : Commodity → Commodity)
    (hf : ∀ c, (f c).name = c.name) (n : String) :
    ratioOf (cs.map f) n
      = ((cs.find? (fun c => c.name = n)).map (fun c => (f c).base_ratio)).getD 0 := by
  unfold ratioOf findCommodity
  rw [find?_name_map cs f hf n]
  cases cs.find? (fun c => c.name = n) <;> simp

/-! ## C8 — base pricing -/

/-- C8: after every run of `update_prices_from_ratios` on a session with a
base commodity set, the base commodity's entry has ratio 1 and price
`BASE_PRICE_RS`, and every other commodity's entry has ratio at least 1
(a non-positive ratio was floored to 1) and satisfies
`price * ratio = BASE_PRICE_RS` exactly. -/
theorem base_pricing (gs : GameState) (hbase : gs.base_commodity ≠ "")
    (c : Commodity) (hc : c ∈ (update_prices_from_ratios gs).commodities) :
    (c.name = gs.base_commodity → c.base_ratio = 1 ∧ c.price = BASE_PRICE_RS) ∧
    (c.name ≠ gs.base_commodity →
      1 ≤ c.base_ratio ∧ c.price * (c.base_ratio : ℚ) = BASE_PRICE_RS) := by
  unfold update_prices_from_ratios at hc
  rw [if_neg hbase] at hc
  simp only [List.mem_map] at hc
  obtain ⟨c0, _hc0, rfl⟩ := hc
  by_cases hb : c0.name = gs.base_commodity
  · simp only [hb, if_pos rfl]
    exact ⟨fun _ => ⟨rfl, rfl⟩, fun hne => absurd rfl hne⟩
  · rw [if_neg hb]
    refine ⟨fun h => absurd h hb, fun _ => ?_⟩
    have hr : (1 : ℤ) ≤ (if c0.base_ratio ≤ 0 then 1 else c0.base_ratio) := by
      split <;> omega
    refine ⟨hr, ?_⟩
    have hne : ((if c0.base_ratio ≤ 0 then 1 else c0.base_ratio : ℤ) : ℚ) ≠ 0 := by
      exact_mod_cast (by omega : (if c0.base_ratio ≤ 0 then 1 else c0.base_ratio : ℤ) ≠ 0)
    exact div_mul_cancel₀ BASE_PRICE_RS hne

/-- Witness for C8: the fixture session with stale prices and a
non-positive base ratio, checked at the non-base commodity. -/
theorem base_pricing_witness :
    cFixB ∈ (update_prices_from_ratios gsFixUnpriced).commodities ∧
    ((cFixB.name = gsFixUnpriced.base_commodity →
        cFixB.base_ratio = 1 ∧ cFixB.price = BASE_PRICE_RS) ∧
     (cFixB.name ≠ gsFixUnpriced.base_commodity →
        1 ≤ cFixB.base_ratio ∧ cFixB.price * (cFixB.base_ratio : ℚ) = BASE_PRICE_RS)) :=
  suffices hmem : cFixB ∈ (update_prices_from_ratios gsFixUnpriced).commodities from
    ⟨hmem, base_pricing gsFixUnpriced (by decide) cFixB hmem⟩
  by
    have h : (update_prices_from_ratios gsFixUnpriced).commodities = [cFixA, cFixB] := by
      simp only [update_prices_from_ratios, gsFixUnpriced, gsFix, cFixA, cFixB,
        BASE_PRICE_RS]
      norm_num
      rw [if_neg (by decide : ¬ ("A" = "")), if_neg (by decide : ¬ ("B" = "A"))]
    rw [h]
    exact List.mem_cons_of_mem _ (List.mem_cons_self _ _)

/-! ## C2 — circuit-breaker bound -/

/-- C2: one call to `update_ratios_auto` in an active round — hence also
the last call of any nonempty sequence of such calls within the round,
whatever demand each saw — leaves every non-base commodity's ratio inside
the circuit band `[lower, upper]` built from its round-open snapshot ratio
floored to 1, and forces every entry named like the base commodity back to
ratio 1.  The hypotheses hold for any demand distribution, sensitivity and
circuit percentage: the bound comes from the clamp alone. -/
theorem floorTo1_eq_max (x : ℤ) : floorTo1 x = max 1 x := by
  unfold floorTo1
  omega

theorem clamp_in_band (p a b : ℤ) :
    max 1 a ≤ min (max p (max 1 a)) (max (max 1 a + 1) b) ∧
    min (max p (max 1 a)) (max (max 1 a + 1) b) ≤ max (max 1 a + 1) b := by
  omega

/-- `ratioStep` never changes a commodity's name. -/
theorem ratioStep_name (gs : GameState) (sensitivity circuit_pct : ℚ)
    (net : List (String × ℚ)) (total_abs : ℚ) (c : Commodity) :
    (ratioStep gs sensitivity circuit_pct net total_abs c).name = c.name := by
  unfold ratioStep
  split <;> rfl

/-- `baseReset` never changes a commodity's name. -/
theorem baseReset_name (base : String) (c : Commodity) :
    (baseReset base c).name = c.name := by
  unfold baseReset
  split <;> rfl

/-- `ratioOf` over a name-preserving rewrite, at a name the original list
resolves. -/
theorem ratioOf_eq_of_find (cs : List Commodity) (f : Commodity → Commodity)
    (hf : ∀ x, (f x).name = x.name) (c : Commodity) (n : String)
    (h : cs.find? (fun x => x.name = n) = some c) :
    ratioOf (cs.map f) n = (f c).base_ratio := by
  rw [ratioOf_map cs f hf, h]
  rfl

/-- The clamped ratio `ratioStep` writes on a non-base commodity lies in
the circuit band of its round-open snapshot (floored to 1, defaulting to
the current ratio floored to 1). -/
theorem ratioStep_bound (gs : GameState) (sensitivity circuit_pct : ℚ)
    (net : List (String × ℚ)) (total_abs : ℚ) (c : Commodity)
    (hnb : ¬ c.name = gs.base_commodity) :
    max 1 (pyRound (((max 1 (alGetD gs.round_open_ratios c.name
        (max 1 c.base_ratio)) : ℤ) : ℚ) * (1 - circuit_pct)))
      ≤ (ratioStep gs sensitivity circuit_pct net total_abs c).base_ratio ∧
    (ratioStep gs sensitivity circuit_pct net total_abs c).base_ratio
      ≤ max (max 1 (pyRound (((max 1 (alGetD gs.round_open_ratios c.name
          (max 1 c.base_ratio)) : ℤ) : ℚ) * (1 - circuit_pct))) + 1)
          (pyRound (((max 1 (alGetD gs.round_open_ratios c.name
            (max 1 c.base_ratio)) : ℤ) : ℚ) * (1 + circuit_pct))) := by
  unfold ratioStep
  rw [if_neg hnb]
  dsimp only
  simp only [floorTo1_eq_max]
  exact clamp_in_band _ _ _

/-- C2: one call to `update_ratios_auto` in an active round — hence also
the last call of any nonempty sequence of such calls within the round,
whatever demand each saw — leaves every non-base commodity's ratio inside
the circuit band `[lower, upper]` built from its round-open snapshot ratio
floored to 1, and forces every entry named like the base commodity back to
ratio 1.  The bounds hold for any demand distribution, sensitivity and
circuit percentage: they come from the clamp alone. -/
theorem circuit_breaker_bound (gs : GameState) (sensitivity circuit_pct : ℚ)
    (c : Commodity)
    (hround : gs.current_round ≠ 0)
    (hfirst : findCommodity gs.commodities c.name = some c)
    (hnotbase : ¬ c.name = gs.base_commodity) :
    (max 1 (pyRound (((max 1 (alGetD gs.round_open_ratios c.name
          (max 1 c.base_ratio)) : ℤ) : ℚ) * (1 - circuit_pct)))
        ≤ ratioOf (update_ratios_auto gs sensitivity circuit_pct).commodities c.name ∧
      ratioOf (update_ratios_auto gs sensitivity circuit_pct).commodities c.name
        ≤ max (max 1 (pyRound (((max 1 (alGetD gs.round_open_ratios c.name
            (max 1 c.base_ratio)) : ℤ) : ℚ) * (1 - circuit_pct))) + 1)
            (pyRound (((max 1 (alGetD gs.round_open_ratios c.name
              (max 1 c.base_ratio)) : ℤ) : ℚ) * (1 + circuit_pct)))) ∧
    ∀ cb ∈ (update_ratios_auto gs sensitivity circuit_pct).commodities,
      cb.name = gs.base_commodity → cb.base_ratio = 1 := by
  unfold update_ratios_auto
  rw [if_neg hround]
  dsimp only
  set F := ratioStep gs sensitivity circuit_pct
    (compute_net_demand gs gs.current_round)
    (orOne ((compute_net_demand gs gs.current_round).map (fun p => |p.2|)).sum)
    with hF
  have hFname : ∀ x, (F x).name = x.name := fun x => ratioStep_name _ _ _ _ _ x
  have hfind : (gs.commodities.map F).find? (fun x => x.name = c.name)
      = some (F c) := by
    rw [find?_name_map gs.commodities F hFname]
    unfold findCommodity at hfirst
    rw [hfirst]
    rfl
  by_cases hany :
      (gs.commodities.map F).any (fun x => x.name = gs.base_commodity) = true
  · rw [if_pos hany]
    constructor
    · have hr : ratioOf ((gs.commodities.map F).map (baseReset gs.base_commodity))
          c.name = (baseReset gs.base_commodity (F c)).base_ratio :=
        ratioOf_eq_of_find _ _ (fun x => baseReset_name _ x) _ _ hfind
      have hskip : baseReset gs.base_commodity (F c) = F c := by
        unfold baseReset
        rw [if_neg (by rw [hFname c]; exact hnotbase)]
      rw [hr, hskip, hF]
      exact ratioStep_bound gs sensitivity circuit_pct _ _ c hnotbase
    · intro cb hcb hcbname
      simp only [List.mem_map] at hcb
      obtain ⟨x, hx, rfl⟩ := hcb
      unfold baseReset at hcbname ⊢
      by_cases hxb : x.name = gs.base_commodity
      · rw [if_pos hxb]
      · rw [if_neg hxb] at hcbname ⊢
        exact absurd hcbname hxb
  · rw [if_neg hany]
    constructor
    · have hr : ratioOf (gs.commodities.map F) c.name = (F c).base_ratio := by
        unfold ratioOf findCommodity
        rw [hfind]
        rfl
      rw [hr, hF]
      exact ratioStep_bound gs sensitivity circuit_pct _ _ c hnotbase
    · intro cb hcb hcbname
      exact absurd (List.any_eq_true.mpr ⟨cb, hcb, by simp [hcbname]⟩) hany

/-- Witness for C2: the fixture session (snapshot ratio 4 for `B`) with
default sensitivity 0.5 and circuit 0.20. -/
theorem circuit_breaker_bound_witness :
    (max 1 (pyRound (((max 1 (alGetD gsFix.round_open_ratios cFixB.name
          (max 1 cFixB.base_ratio)) : ℤ) : ℚ) * (1 - 0.20)))
        ≤ ratioOf (update_ratios_auto gsFix 0.5 0.20).commodities cFixB.name ∧
      ratioOf (update_ratios_auto gsFix 0.5 0.20).commodities cFixB.name
        ≤ max (max 1 (pyRound (((max 1 (alGetD gsFix.round_open_ratios cFixB.name
            (max 1 cFixB.base_ratio)) : ℤ) : ℚ) * (1 - 0.20))) + 1)
            (pyRound (((max 1 (alGetD gsFix.round_open_ratios cFixB.name
              (max 1 cFixB.base_ratio)) : ℤ) : ℚ) * (1 + 0.20)))) ∧
    ∀ cb ∈ (update_ratios_auto gsFix 0.5 0.20).commodities,
      cb.name = gsFix.base_commodity → cb.base_ratio = 1 :=
  circuit_breaker_bound gsFix 0.5 0.20 cFixB (by decide) rfl (by decide)

/-! ## Team-ledger laws -/

/-- `find?` on a team-name predicate commutes with a name-preserving map. -/
theorem find?_team_map (ts : List Team) (f : Team → Team)
    (hf : ∀ t, (f t).name = t.name) (n : String) :
    (ts.map f).find? (fun t => t.name = n)
      = (ts.find? (fun t => t.name = n)).map f := by
  induction ts with
  | nil => simp
  | cons t l ih =>
    by_cases hn : t.name = n
    · simp [List.find?, hf, hn]
    · simp only [List.map_cons, List.find?]
      rw [show (decide ((f t).name = n)) = false from by simp [hf, hn],
        show (decide (t.name = n)) = false from by simp [hn]]
      exact ih

/-- `setTeamHolding` rewrites teams name-preservingly, so name lookups
resolve to the rewritten team record. -/
theorem find?_setTeamHolding (ts : List Team) (n c : String) (v : ℤ)
    (n' : String) :
    (setTeamHolding ts n c v).find? (fun t => t.name = n')
      = (ts.find? (fun t => t.name = n')).map (fun t =>
          if t.name = n then { t with holdings := alSet t.holdings c v } else t) := by
  unfold setTeamHolding
  exact find?_team_map ts _ (fun t => by split <;> rfl) n'

theorem getTeamHolding_set_same (ts : List Team) (n c : String) (v : ℤ)
    (h : (ts.find? (fun t => t.name = n)).isSome) :
    getTeamHolding (setTeamHolding ts n c v) n c = v := by
  unfold getTeamHolding
  rw [find?_setTeamHolding]
  obtain ⟨t, ht⟩ := Option.isSome_iff_exists.mp h
  have hname : t.name = n := by
    have hpt := List.find?_some ht
    simp only [decide_eq_true_eq] at hpt
    exact hpt
  rw [ht]
  simp [hname, alGetD_alSet_same]

theorem getTeamHolding_set_other (ts : List Team) (n c : String) (v : ℤ)
    (n' c' : String) (h : ¬ (n' = n ∧ c' = c)) :
    getTeamHolding (setTeamHolding ts n c v) n' c' = getTeamHolding ts n' c' := by
  unfold getTeamHolding
  rw [find?_setTeamHolding]
  cases hfind : ts.find? (fun t => t.name = n') with
  | none => rfl
  | some t =>
    have hname : t.name = n' := by
      have hpt := List.find?_some hfind
      simp only [decide_eq_true_eq] at hpt
      exact hpt
    by_cases hn : n' = n
    · have hc : ¬ c' = c := fun hc => h ⟨hn, hc⟩
      simp only [Option.map_some']
      rw [if_pos (hname.trans hn)]
      simp [alGetD_alSet_other _ _ _ _ _ hc]
    · simp only [Option.map_some']
      rw [if_neg (fun hh : t.name = n => hn (hname.symm.trans hh))]

/-- `setTeamHolding` keeps every name lookup resolvable. -/
theorem isSome_find?_setTeamHolding (ts : List Team) (n c : String) (v : ℤ)
    (n' : String) :
    ((setTeamHolding ts n c v).find? (fun t => t.name = n')).isSome
      = (ts.find? (fun t => t.name = n')).isSome := by
  rw [find?_setTeamHolding]
  cases ts.find? (fun t => t.name = n') <;> rfl

/-! ## C6 — conservation of units under trades -/

/-- One bidirectional transfer step conserves the pair sum per commodity
and leaves every third team's holdings unchanged. -/
theorem transfer_step_conserve (ts ts1 ts2 : List Team)
    (fromT toT c : String) (q : ℤ)
    (hne : fromT ≠ toT)
    (hf : (ts.find? (fun t => t.name = fromT)).isSome)
    (ht : (ts.find? (fun t => t.name = toT)).isSome)
    (hts1 : ts1 = setTeamHolding ts fromT c (getTeamHolding ts fromT c - q))
    (hts2 : ts2 = setTeamHolding ts1 toT c (getTeamHolding ts1 toT c + q)) :
    (∀ c', getTeamHolding ts2 fromT c' + getTeamHolding ts2 toT c'
        = getTeamHolding ts fromT c' + getTeamHolding ts toT c') ∧
    (∀ u c', u ≠ fromT → u ≠ toT → getTeamHolding ts2 u c' = getTeamHolding ts u c') := by
  have hf1 : (ts1.find? (fun t => t.name = fromT)).isSome := by
    rw [hts1, isSome_find?_setTeamHolding]
    exact hf
  have ht1 : (ts1.find? (fun t => t.name = toT)).isSome := by
    rw [hts1, isSome_find?_setTeamHolding]
    exact ht
  constructor
  · intro c'
    by_cases hc : c' = c
    · rw [hc]
      have e1 : getTeamHolding ts2 toT c = getTeamHolding ts1 toT c + q := by
        rw [hts2]
        exact getTeamHolding_set_same _ _ _ _ ht1
      have e2 : getTeamHolding ts2 fromT c = getTeamHolding ts1 fromT c := by
        rw [hts2]
        exact getTeamHolding_set_other _ _ _ _ _ _ (fun hh => hne hh.1)
      have e3 : getTeamHolding ts1 fromT c = getTeamHolding ts fromT c - q := by
        rw [hts1]
        exact getTeamHolding_set_same _ _ _ _ hf
      have e4 : getTeamHolding ts1 toT c = getTeamHolding ts toT c := by
        rw [hts1]
        exact getTeamHolding_set_other _ _ _ _ _ _ (fun hh => hne hh.1.symm)
      rw [e1, e2, e3, e4]
      ring
    · have e1 : getTeamHolding ts2 toT c' = getTeamHolding ts1 toT c' := by
        rw [hts2]
        exact getTeamHolding_set_other _ _ _ _ _ _ (fun hh => hc hh.2)
      have e2 : getTeamHolding ts2 fromT c' = getTeamHolding ts1 fromT c' := by
        rw [hts2]
        exact getTeamHolding_set_other _ _ _ _ _ _ (fun hh => hne hh.1)
      have e3 : getTeamHolding ts1 fromT c' = getTeamHolding ts fromT c' := by
        rw [hts1]
        exact getTeamHolding_set_other _ _ _ _ _ _ (fun hh => hc hh.2)
      have e4 : getTeamHolding ts1 toT c' = getTeamHolding ts toT c' := by
        rw [hts1]
        exact getTeamHolding_set_other _ _ _ _ _ _ (fun hh => hne hh.1.symm)
      rw [e1, e2, e3, e4]
  · intro u c' hu1 hu2
    have e1 : getTeamHolding ts2 u c' = getTeamHolding ts1 u c' := by
      rw [hts2]
      exact getTeamHolding_set_other _ _ _ _ _ _ (fun hh => hu2 hh.1)
    have e2 : getTeamHolding ts1 u c' = getTeamHolding ts u c' := by
      rw [hts1]
      exact getTeamHolding_set_other _ _ _ _ _ _ (fun hh => hu1 hh.1)
    rw [e1, e2]

/-- The give loop conserves the pair sum and third-party holdings, whether
or not it runs to completion. -/
theorem giveLoop_conserve (fromT toT : String) (hne : fromT ≠ toT)
    (l : List (String × ℤ)) :
    ∀ ts : List Team,
    (ts.find? (fun t => t.name = fromT)).isSome →
    (ts.find? (fun t => t.name = toT)).isSome →
    ((∀ c', getTeamHolding (giveLoop fromT toT l ts).1 fromT c'
          + getTeamHolding (giveLoop fromT toT l ts).1 toT c'
        = getTeamHolding ts fromT c' + getTeamHolding ts toT c') ∧
     (∀ u c', u ≠ fromT → u ≠ toT →
        getTeamHolding (giveLoop fromT toT l ts).1 u c' = getTeamHolding ts u c')) ∧
    ((giveLoop fromT toT l ts).1.find? (fun t => t.name = fromT)).isSome ∧
    ((giveLoop fromT toT l ts).1.find? (fun t => t.name = toT)).isSome := by
  induction l with
  | nil =>
    intro ts hf ht
    exact ⟨⟨fun _ => rfl, fun _ _ _ _ => rfl⟩, hf, ht⟩
  | cons p rest ih =>
    intro ts hf ht
    obtain ⟨c, q⟩ := p
    show _ ∧ _
    unfold giveLoop
    by_cases hq : q < 0
    · rw [if_pos hq]
      exact ⟨⟨fun _ => rfl, fun _ _ _ _ => rfl⟩, hf, ht⟩
    · rw [if_neg hq]
      by_cases hins : getTeamHolding ts fromT c < q
      · rw [if_pos hins]
        exact ⟨⟨fun _ => rfl, fun _ _ _ _ => rfl⟩, hf, ht⟩
      · rw [if_neg hins]
        dsimp only
        set ts1 := setTeamHolding ts fromT c (getTeamHolding ts fromT c - q) with hts1
        set ts2 := setTeamHolding ts1 toT c (getTeamHolding ts1 toT c + q) with hts2
        have hstep := transfer_step_conserve ts ts1 ts2 fromT toT c q hne hf ht hts1 hts2
        have hf2 : (ts2.find? (fun t => t.name = fromT)).isSome := by
          rw [hts2, isSome_find?_setTeamHolding, hts1, isSome_find?_setTeamHolding]
          exact hf
        have ht2 : (ts2.find? (fun t => t.name = toT)).isSome := by
          rw [hts2, isSome_find?_setTeamHolding, hts1, isSome_find?_setTeamHolding]
          exact ht
        obtain ⟨⟨ihsum, ihframe⟩, ihf, iht⟩ := ih ts2 hf2 ht2
        refine ⟨⟨fun c' => ?_, fun u c' hu1 hu2 => ?_⟩, ihf, iht⟩
        · rw [ihsum c', hstep.1 c']
        · rw [ihframe u c' hu1 hu2, hstep.2 u c' hu1 hu2]

/-- The receive loop conserves the pair sum and third-party holdings. -/
theorem receiveLoop_conserve (fromT toT : String) (hne : fromT ≠ toT)
    (l : List (String × ℤ)) :
    ∀ ts : List Team,
    (ts.find? (fun t => t.name = fromT)).isSome →
    (ts.find? (fun t => t.name = toT)).isSome →
    ((∀ c', getTeamHolding (receiveLoop fromT toT l ts).1 fromT c'
          + getTeamHolding (receiveLoop fromT toT l ts).1 toT c'
        = getTeamHolding ts fromT c' + getTeamHolding ts toT c') ∧
     (∀ u c', u ≠ fromT → u ≠ toT →
        getTeamHolding (receiveLoop fromT toT l ts).1 u c' = getTeamHolding ts u c')) ∧
    ((receiveLoop fromT toT l ts).1.find? (fun t => t.name = fromT)).isSome ∧
    ((receiveLoop fromT toT l ts).1.find? (fun t => t.name = toT)).isSome := by
  induction l with
  | nil =>
    intro ts hf ht
    exact ⟨⟨fun _ => rfl, fun _ _ _ _ => rfl⟩, hf, ht⟩
  | cons p rest ih =>
    intro ts hf ht
    obtain ⟨c, q⟩ := p
    show _ ∧ _
    unfold receiveLoop
    by_cases hq : q < 0
    · rw [if_pos hq]
      exact ⟨⟨fun _ => rfl, fun _ _ _ _ => rfl⟩, hf, ht⟩
    · rw [if_neg hq]
      by_cases hins : getTeamHolding ts toT c < q
      · rw [if_pos hins]
        exact ⟨⟨fun _ => rfl, fun _ _ _ _ => rfl⟩, hf, ht⟩
      · rw [if_neg hins]
        dsimp only
        set ts1 := setTeamHolding ts toT c (getTeamHolding ts toT c - q) with hts1
        set ts2 := setTeamHolding ts1 fromT c (getTeamHolding ts1 fromT c + q) with hts2
        have hstep := transfer_step_conserve ts ts1 ts2 toT fromT c q (Ne.symm hne) ht hf hts1 hts2
        have hf2 : (ts2.find? (fun t => t.name = fromT)).isSome := by
          rw [hts2, isSome_find?_setTeamHolding, hts1, isSome_find?_setTeamHolding]
          exact hf
        have ht2 : (ts2.find? (fun t => t.name = toT)).isSome := by
          rw [hts2, isSome_find?_setTeamHolding, hts1, isSome_find?_setTeamHolding]
          exact ht
        obtain ⟨⟨ihsum, ihframe⟩, ihf, iht⟩ := ih ts2 hf2 ht2
        refine ⟨⟨fun c' => ?_, fun u c' hu1 hu2 => ?_⟩, ihf, iht⟩
        · rw [ihsum c']
          have := hstep.1 c'
          omega
        · rw [ihframe u c' hu1 hu2, hstep.2 u c' hu2 hu1]

/-- C6: a successful trade between two distinct teams conserves, for every
commodity, the sum of the two parties' holdings, and leaves every other
team's holdings unchanged. -/
theorem trade_conservation (gs : GameState) (fromT toT : String)
    (give receive : List (String × ℤ)) (gs' : GameState)
    (hne : fromT ≠ toT)
    (hok : record_trade gs fromT toT give receive = (gs', none)) :
    (∀ c, getTeamHolding gs'.teams fromT c + getTeamHolding gs'.teams toT c
        = getTeamHolding gs.teams fromT c + getTeamHolding gs.teams toT c) ∧
    (∀ u c, u ≠ fromT → u ≠ toT →
        getTeamHolding gs'.teams u c = getTeamHolding gs.teams u c) := by
  unfold record_trade at hok
  by_cases hr : gs.current_round = 0
  · rw [if_pos hr] at hok
    exact absurd (congrArg Prod.snd hok) (by simp)
  · rw [if_neg hr] at hok
    by_cases hdup : gs.trades.any (fun tr => tr.round_no = gs.current_round ∧
        samePair tr.from_team tr.to_team fromT toT) = true
    · rw [if_pos hdup] at hok
      exact absurd (congrArg Prod.snd hok) (by simp)
    · rw [if_neg hdup] at hok
      dsimp only at hok
      unfold apply_trade at hok
      by_cases hmiss : (gs.teams.find? (fun t => t.name = fromT)).isNone ∨
          (gs.teams.find? (fun t => t.name = toT)).isNone
      · rw [if_pos hmiss] at hok
        exact absurd (congrArg Prod.snd hok) (by simp)
      · rw [if_neg hmiss] at hok
        push_neg at hmiss
        obtain ⟨hfo, hto⟩ := hmiss
        have hf : (gs.teams.find? (fun t => t.name = fromT)).isSome := by
          cases h : gs.teams.find? (fun t => t.name = fromT)
          · exact absurd (by rw [h]; rfl) hfo
          · rfl
        have ht : (gs.teams.find? (fun t => t.name = toT)).isSome := by
          cases h : gs.teams.find? (fun t => t.name = toT)
          · exact absurd (by rw [h]; rfl) hto
          · rfl
        obtain ⟨⟨gsum, gframe⟩, gf, gt⟩ := giveLoop_conserve fromT toT hne give gs.teams hf ht
        cases hgive : giveLoop fromT toT give gs.teams with
        | mk ts1 e1 =>
          rw [hgive] at hok
          cases e1 with
          | some e =>
            exact absurd (congrArg Prod.snd hok) (by simp)
          | none =>
            rw [hgive] at gsum gframe gf gt
            dsimp only at hok gsum gframe gf gt
            obtain ⟨⟨rsum, rframe⟩, _, _⟩ := receiveLoop_conserve fromT toT hne receive ts1 gf gt
            cases hrecv : receiveLoop fromT toT receive ts1 with
            | mk ts2 e2 =>
              rw [hrecv] at hok rsum rframe
              dsimp only at hok rsum rframe
              cases e2 with
              | some e =>
                exact absurd (congrArg Prod.snd hok) (by simp)
              | none =>
                have hteams : gs'.teams = ts2 := by
                  have := congrArg Prod.fst hok
                  simp only at this
                  rw [← this]
                rw [hteams]
                exact ⟨fun c => by rw [rsum c, gsum c],
                  fun u c hu1 hu2 => by rw [rframe u c hu1 hu2, gframe u c hu1 hu2]⟩

/-- Witness for C6: the fixture trade of 4 `A` for 16 `B` between the two
fixture teams. -/
theorem trade_conservation_witness :
    record_trade gsFix "T1" "T2" [("A", 4)] [("B", 16)]
      = ((record_trade gsFix "T1" "T2" [("A", 4)] [("B", 16)]).1, none) ∧
    ((∀ c, getTeamHolding (record_trade gsFix "T1" "T2" [("A", 4)] [("B", 16)]).1.teams "T1" c
          + getTeamHolding (record_trade gsFix "T1" "T2" [("A", 4)] [("B", 16)]).1.teams "T2" c
        = getTeamHolding gsFix.teams "T1" c + getTeamHolding gsFix.teams "T2" c) ∧
     (∀ u c, u ≠ "T1" → u ≠ "T2" →
        getTeamHolding (record_trade gsFix "T1" "T2" [("A", 4)] [("B", 16)]).1.teams u c
          = getTeamHolding gsFix.teams u c)) :=
  ⟨by decide, trade_conservation gsFix "T1" "T2" [("A", 4)] [("B", 16)] _
    (by decide) (by decide)⟩

/-! ## C1 — atomicity of trade application

The source validates each `give`/`receive` entry only as it transfers it,
so an error discovered on a later entry leaves the earlier transfers
applied: `record_trade` is *not* atomic.  The theorem below evaluates the
engine at a concrete failing input: the call raises the insufficiency
error on the second `give` entry, yet the first entry's transfer has
already moved holdings, while the journal stays unchanged. -/

/-- C1 (refuted, code bug): on the fixture state, trading give = one `A`
plus nine `B` fails (`T1` holds only eight `B`) — but after the failed
call `T1` has lost one `A` and `T2` has gained it.  The error path leaves
partial application observable, contradicting the atomicity the spec
mandates. -/
theorem record_trade_not_atomic :
    (record_trade gsFix "T1" "T2" [("A", 1), ("B", 9)] []).2
        = some (TradeErr.insufficient "T1" "B") ∧
    getTeamHolding gsFix.teams "T1" "A" = 5 ∧
    getTeamHolding gsFix.teams "T2" "A" = 6 ∧
    getTeamHolding (record_trade gsFix "T1" "T2" [("A", 1), ("B", 9)] []).1.teams "T1" "A" = 4 ∧
    getTeamHolding (record_trade gsFix "T1" "T2" [("A", 1), ("B", 9)] []).1.teams "T2" "A" = 7 ∧
    (record_trade gsFix "T1" "T2" [("A", 1), ("B", 9)] []).1.trades = gsFix.trades := by
  decide

/-! ## C5 — one trade per unordered pair per round -/

/-- The give loop never reports a duplicate-pair error. -/
theorem giveLoop_no_dup (fromT toT : String) (l : List (String × ℤ)) :
    ∀ ts, (giveLoop fromT toT l ts).2 ≠ some TradeErr.duplicatePair := by
  induction l with
  | nil => intro ts h; simp [giveLoop] at h
  | cons p rest ih =>
    intro ts
    obtain ⟨c, q⟩ := p
    unfold giveLoop
    by_cases hq : q < 0
    · rw [if_pos hq]
      simp
    · rw [if_neg hq]
      by_cases hins : getTeamHolding ts fromT c < q
      · rw [if_pos hins]
        simp
      · rw [if_neg hins]
        exact ih _

/-- The receive loop never reports a duplicate-pair error. -/
theorem receiveLoop_no_dup (fromT toT : String) (l : List (String × ℤ)) :
    ∀ ts, (receiveLoop fromT toT l ts).2 ≠ some TradeErr.duplicatePair := by
  induction l with
  | nil => intro ts h; simp [receiveLoop] at h
  | cons p rest ih =>
    intro ts
    obtain ⟨c, q⟩ := p
    unfold receiveLoop
    by_cases hq : q < 0
    · rw [if_pos hq]
      simp
    · rw [if_neg hq]
      by_cases hins : getTeamHolding ts toT c < q
      · rw [if_pos hins]
        simp
      · rw [if_neg hins]
        exact ih _

/-- `apply_trade` never reports a duplicate-pair error. -/
theorem apply_trade_no_dup (tr : Trade) (ts : List Team) :
    (apply_trade tr ts).2 ≠ some TradeErr.duplicatePair := by
  unfold apply_trade
  split
  · simp
  · cases hg : giveLoop tr.from_team tr.to_team tr.give ts with
    | mk ts1 e1 =>
      cases e1 with
      | some e =>
        intro h
        simp only at h
        exact giveLoop_no_dup tr.from_team tr.to_team tr.give ts
          (by rw [hg, h])
      | none =>
        simp only
        exact receiveLoop_no_dup tr.from_team tr.to_team tr.receive ts1

/-- C5: in an active round, a trade whose unordered pair already traded
this round is rejected with the duplicate-pair error and the whole state —
holdings and journal — is returned untouched; a successful call preserves
the invariant that same-round journal entries have pairwise distinct
unordered pairs; and when no same-round trade with this unordered pair
exists, the call never fails with the duplicate-pair error. -/
theorem duplicate_pair_rule (gs : GameState) (fromT toT : String)
    (give receive : List (String × ℤ))
    (hround : gs.current_round ≠ 0) :
    (gs.trades.any (fun tr => tr.round_no = gs.current_round ∧
        samePair tr.from_team tr.to_team fromT toT) = true →
      record_trade gs fromT toT give receive = (gs, some TradeErr.duplicatePair)) ∧
    (pairwiseDistinctRounds gs.trades →
      (record_trade gs fromT toT give receive).2 = none →
      pairwiseDistinctRounds (record_trade gs fromT toT give receive).1.trades) ∧
    (gs.trades.any (fun tr => tr.round_no = gs.current_round ∧
        samePair tr.from_team tr.to_team fromT toT) = false →
      (record_trade gs fromT toT give receive).2 ≠ some TradeErr.duplicatePair) := by
  refine ⟨fun hdup => ?_, fun hinv hok => ?_, fun hnodup => ?_⟩
  · unfold record_trade
    rw [if_neg hround, if_pos hdup]
  · unfold record_trade at hok ⊢
    rw [if_neg hround] at hok ⊢
    by_cases hdup : gs.trades.any (fun tr => tr.round_no = gs.current_round ∧
        samePair tr.from_team tr.to_team fromT toT) = true
    · rw [if_pos hdup] at hok
      simp at hok
    · rw [if_neg hdup] at hok ⊢
      dsimp only at hok ⊢
      cases happ : apply_trade ⟨gs.current_round, fromT, toT, give, receive⟩ gs.teams with
      | mk ts e =>
        cases e with
        | some err =>
          rw [happ] at hok
          simp at hok
        | none =>
          dsimp only
          unfold pairwiseDistinctRounds at hinv ⊢
          rw [List.pairwise_append]
          refine ⟨hinv, List.pairwise_singleton _ _, ?_⟩
          intro a ha b hb hr
          rw [List.mem_singleton] at hb
          subst hb
          have hnot : ¬ (a.round_no = gs.current_round ∧
              samePair a.from_team a.to_team fromT toT = true) := by
            intro hcontra
            exact hdup (List.any_eq_true.mpr
              ⟨a, ha, by simp [hcontra.1, hcontra.2]⟩)
          dsimp only at hr
          cases hsp : samePair a.from_team a.to_team fromT toT
          · rfl
          · exact absurd ⟨hr, hsp⟩ hnot
  · unfold record_trade
    rw [if_neg hround, if_neg (by rw [hnodup]; exact Bool.false_ne_true)]
    dsimp only
    cases happ : apply_trade ⟨gs.current_round, fromT, toT, give, receive⟩ gs.teams with
    | mk ts e =>
      cases e with
      | some err =>
        dsimp only
        intro h
        have : err = TradeErr.duplicatePair := by
          injection h
        subst this
        exact apply_trade_no_dup _ _ (by rw [happ])
      | none => simp

/-- Witness for C5 at the fixture session. -/
theorem duplicate_pair_rule_witness :
    (gsFix.trades.any (fun tr => tr.round_no = gsFix.current_round ∧
        samePair tr.from_team tr.to_team "T1" "T3") = true →
      record_trade gsFix "T1" "T3" [("A", 1)] []
        = (gsFix, some TradeErr.duplicatePair)) ∧
    (pairwiseDistinctRounds gsFix.trades →
      (record_trade gsFix "T1" "T3" [("A", 1)] []).2 = none →
      pairwiseDistinctRounds (record_trade gsFix "T1" "T3" [("A", 1)] []).1.trades) ∧
    (gsFix.trades.any (fun tr => tr.round_no = gsFix.current_round ∧
        samePair tr.from_team tr.to_team "T1" "T3") = false →
      (record_trade gsFix "T1" "T3" [("A", 1)] []).2 ≠ some TradeErr.duplicatePair) :=
  duplicate_pair_rule gsFix "T1" "T3" [("A", 1)] [] (by decide)

/-! ## C10 — self-trades are accepted and are observable no-ops

With `from_team = to_team`, both loop aliases are the same Python object:
each entry's subtraction is immediately undone by the addition, so every
sufficiency check sees the original holdings and the loops leave all
quantities unchanged. -/

/-- The give loop on a self-trade: when the team exists and holds every
entry (with non-negative quantities), the loop succeeds and every team's
every holding is unchanged. -/
theorem giveLoop_self (T : String) (l : List (String × ℤ)) :
    ∀ ts, (ts.find? (fun t => t.name = T)).isSome →
    (∀ p ∈ l, 0 ≤ p.2 ∧ p.2 ≤ getTeamHolding ts T p.1) →
    (giveLoop T T l ts).2 = none ∧
    (∀ u c, getTeamHolding (giveLoop T T l ts).1 u c = getTeamHolding ts u c) ∧
    ((giveLoop T T l ts).1.find? (fun t => t.name = T)).isSome := by
  induction l with
  | nil =>
    intro ts hT _
    exact ⟨rfl, fun _ _ => rfl, hT⟩
  | cons p rest ih =>
    intro ts hT hold
    obtain ⟨c, q⟩ := p
    have hq : ¬ q < 0 := by
      have h0 := (hold (c, q) (List.mem_cons_self _ _)).1
      dsimp only at h0
      omega
    have hins : ¬ getTeamHolding ts T c < q := by
      have h0 := (hold (c, q) (List.mem_cons_self _ _)).2
      dsimp only at h0
      omega
    unfold giveLoop
    rw [if_neg hq, if_neg hins]
    dsimp only
    set ts1 := setTeamHolding ts T c (getTeamHolding ts T c - q) with hts1
    set ts2 := setTeamHolding ts1 T c (getTeamHolding ts1 T c + q) with hts2
    have hT1 : (ts1.find? (fun t => t.name = T)).isSome := by
      rw [hts1, isSome_find?_setTeamHolding]
      exact hT
    have hT2 : (ts2.find? (fun t => t.name = T)).isSome := by
      rw [hts2, isSome_find?_setTeamHolding]
      exact hT1
    have hpt : ∀ u c', getTeamHolding ts2 u c' = getTeamHolding ts u c' := by
      intro u c'
      by_cases hu : u = T
      · subst hu
        by_cases hc : c' = c
        · subst hc
          have e1 : getTeamHolding ts1 u c' = getTeamHolding ts u c' - q := by
            rw [hts1]
            exact getTeamHolding_set_same _ _ _ _ hT
          have e2 : getTeamHolding ts2 u c' = getTeamHolding ts1 u c' + q := by
            rw [hts2]
            exact getTeamHolding_set_same _ _ _ _ hT1
          rw [e2, e1]
          ring
        · have e1 : getTeamHolding ts1 u c' = getTeamHolding ts u c' := by
            rw [hts1]
            exact getTeamHolding_set_other _ _ _ _ _ _ (fun hh => hc hh.2)
          have e2 : getTeamHolding ts2 u c' = getTeamHolding ts1 u c' := by
            rw [hts2]
            exact getTeamHolding_set_other _ _ _ _ _ _ (fun hh => hc hh.2)
          rw [e2, e1]
      · have e1 : getTeamHolding ts1 u c' = getTeamHolding ts u c' := by
          rw [hts1]
          exact getTeamHolding_set_other _ _ _ _ _ _ (fun hh => hu hh.1)
        have e2 : getTeamHolding ts2 u c' = getTeamHolding ts1 u c' := by
          rw [hts2]
          exact getTeamHolding_set_other _ _ _ _ _ _ (fun hh => hu hh.1)
        rw [e2, e1]
    have hold2 : ∀ p ∈ rest, 0 ≤ p.2 ∧ p.2 ≤ getTeamHolding ts2 T p.1 := by
      intro p hp
      rw [hpt T p.1]
      exact hold p (List.mem_cons_of_mem _ hp)
    obtain ⟨iherr, ihpt, ihT⟩ := ih ts2 hT2 hold2
    exact ⟨iherr, fun u c' => (ihpt u c').trans (hpt u c'), ihT⟩

/-- The receive loop coincides with the give loop on a self-trade. -/
theorem receiveLoop_self_eq (T : String) (l : List (String × ℤ)) :
    ∀ ts, receiveLoop T T l ts = giveLoop T T l ts := by
  induction l with
  | nil => intro ts; rfl
  | cons p rest ih =>
    intro ts
    obtain ⟨c, q⟩ := p
    unfold receiveLoop giveLoop
    by_cases hq : q < 0
    · rw [if_pos hq, if_pos hq]
    · rw [if_neg hq, if_neg hq]
      by_cases hins : getTeamHolding ts T c < q
      · rw [if_pos hins, if_pos hins]
      · rw [if_neg hins, if_neg hins]
        exact ih _

/-- C10: `record_trade` accepts a self-trade.  In an active round with no
prior trade of the singleton pair, when the team exists and holds every
give and receive quantity, the call succeeds, every team's every holding is
unchanged, the trade is appended to the journal, the team counts as having
traded this round, and a second self-trade by the same team this round is
rejected as a duplicate pair with no state change. -/
theorem self_trade_accepted (gs : GameState) (T : String)
    (give receive : List (String × ℤ))
    (hround : gs.current_round ≠ 0)
    (hnodup : gs.trades.any (fun tr => tr.round_no = gs.current_round ∧
        samePair tr.from_team tr.to_team T T) = false)
    (hpresent : (gs.teams.find? (fun t => t.name = T)).isSome)
    (hgive : ∀ p ∈ give, 0 ≤ p.2 ∧ p.2 ≤ getTeamHolding gs.teams T p.1)
    (hrecv : ∀ p ∈ receive, 0 ≤ p.2 ∧ p.2 ≤ getTeamHolding gs.teams T p.1) :
    (record_trade gs T T give receive).2 = none ∧
    (∀ u c, getTeamHolding (record_trade gs T T give receive).1.teams u c
        = getTeamHolding gs.teams u c) ∧
    (record_trade gs T T give receive).1.trades
        = gs.trades ++ [⟨gs.current_round, T, T, give, receive⟩] ∧
    teamTradedInRound (record_trade gs T T give receive).1 gs.current_round T = true ∧
    ∀ give2 receive2,
      record_trade (record_trade gs T T give receive).1 T T give2 receive2
        = ((record_trade gs T T give receive).1, some TradeErr.duplicatePair) := by
  have happly : ∃ ts2, apply_trade ⟨gs.current_round, T, T, give, receive⟩ gs.teams
      = (ts2, none) ∧ ∀ u c, getTeamHolding ts2 u c = getTeamHolding gs.teams u c := by
    unfold apply_trade
    rw [if_neg (by
      intro hcontra
      cases hcontra with
      | inl h =>
        rw [Option.isNone_iff_eq_none] at h
        rw [h] at hpresent
        simp at hpresent
      | inr h =>
        rw [Option.isNone_iff_eq_none] at h
        rw [h] at hpresent
        simp at hpresent)]
    obtain ⟨gerr, gpt, gT⟩ := giveLoop_self T give gs.teams hpresent hgive
    cases hg : giveLoop T T give gs.teams with
    | mk ts1 e1 =>
      rw [hg] at gerr gpt gT
      dsimp only at gerr gpt gT ⊢
      subst gerr
      dsimp only
      have hrecv1 : ∀ p ∈ receive, 0 ≤ p.2 ∧ p.2 ≤ getTeamHolding ts1 T p.1 := by
        intro p hp
        rw [gpt T p.1]
        exact hrecv p hp
      obtain ⟨rerr, rpt, rT⟩ := giveLoop_self T receive ts1 gT hrecv1
      rw [receiveLoop_self_eq]
      cases hr : giveLoop T T receive ts1 with
      | mk ts2 e2 =>
        rw [hr] at rerr rpt
        dsimp only at rerr rpt ⊢
        subst rerr
        exact ⟨ts2, rfl, fun u c => (rpt u c).trans (gpt u c)⟩
  obtain ⟨ts2, heq, hpt⟩ := happly
  have hrec : record_trade gs T T give receive = Prod.mk { gs with teams := ts2, trades := gs.trades ++ [⟨gs.current_round, T, T, give, receive⟩] } none := by
    unfold record_trade
    rw [if_neg hround, if_neg (by rw [hnodup]; exact Bool.false_ne_true)]
    dsimp only
    rw [heq]
  rw [hrec]
  refine ⟨rfl, hpt, rfl, ?_, ?_⟩
  · unfold teamTradedInRound
    dsimp only
    rw [List.any_append]
    simp
  · intro give2 receive2
    unfold record_trade
    dsimp only
    rw [if_neg hround, if_pos (by
      rw [List.any_append]
      simp [samePair])]

/-- Witness for C10: team `T3` of the fixture trades 2 `A` and 1 `B` with
itself in round 1. -/
theorem self_trade_accepted_witness :
    (record_trade gsFix "T3" "T3" [("A", 2)] [("B", 1)]).2 = none ∧
    (∀ u c, getTeamHolding (record_trade gsFix "T3" "T3" [("A", 2)] [("B", 1)]).1.teams u c
        = getTeamHolding gsFix.teams u c) ∧
    (record_trade gsFix "T3" "T3" [("A", 2)] [("B", 1)]).1.trades
        = gsFix.trades ++ [⟨gsFix.current_round, "T3", "T3", [("A", 2)], [("B", 1)]⟩] ∧
    teamTradedInRound (record_trade gsFix "T3" "T3" [("A", 2)] [("B", 1)]).1
      gsFix.current_round "T3" = true ∧
    ∀ give2 receive2,
      record_trade (record_trade gsFix "T3" "T3" [("A", 2)] [("B", 1)]).1 "T3" "T3" give2 receive2
        = ((record_trade gsFix "T3" "T3" [("A", 2)] [("B", 1)]).1, some TradeErr.duplicatePair) :=
  self_trade_accepted gsFix "T3" [("A", 2)] [("B", 1)] (by decide) (by decide)
    (by decide) (by decide) (by decide)

/-! ## C9 — penalty computation at round end -/

/-- `penaltyStep` touches only its team's penalty entry. -/
theorem penaltyStep_other (gs : GameState) (r : ℤ) (nr rr : ℚ)
    (pen : List (String × ℚ)) (t : Team) (n : String) (d : ℚ)
    (hn : n ≠ t.name) :
    alGetD (penaltyStep gs r nr rr pen t) n d = alGetD pen n d := by
  unfold penaltyStep
  cases h1 : teamTradedInRound gs r t.name <;>
    cases h2 : check_min_max_violation gs t <;>
      simp [h1, h2, alGetD_alSet_other _ _ _ _ _ hn]

/-- `penaltyStep` adds to its team exactly the no-trade increment plus the
violation increment, both rated against the same portfolio value. -/
theorem penaltyStep_same (gs : GameState) (r : ℤ) (nr rr : ℚ)
    (pen : List (String × ℚ)) (t : Team) :
    alGetD (penaltyStep gs r nr rr pen t) t.name 0
      = alGetD pen t.name 0
        + (if teamTradedInRound gs r t.name then 0
           else value_rs t gs.commodities * nr)
        + (if check_min_max_violation gs t then value_rs t gs.commodities * rr
           else 0) := by
  unfold penaltyStep
  cases h1 : teamTradedInRound gs r t.name <;>
    cases h2 : check_min_max_violation gs t <;>
      simp [h1, h2, alGetD_alSet_same]

/-- The penalty fold leaves entries of unlisted names unchanged. -/
theorem penaltyFold_frame (gs : GameState) (r : ℤ) (nr rr : ℚ)
    (teams : List Team) :
    ∀ pen n d, n ∉ teams.map (fun t => t.name) →
    alGetD (teams.foldl (penaltyStep gs r nr rr) pen) n d = alGetD pen n d := by
  induction teams with
  | nil => intro pen n d _; rfl
  | cons t0 rest ih =>
    intro pen n d hn
    simp only [List.map_cons, List.mem_cons] at hn
    push_neg at hn
    rw [List.foldl_cons, ih _ _ _ hn.2,
      penaltyStep_other gs r nr rr pen t0 n d hn.1]

/-- The penalty fold over distinct team names gives each listed team
exactly its own two increments. -/
theorem penaltyFold_main (gs : GameState) (r : ℤ) (nr rr : ℚ)
    (teams : List Team)
    (hnodup : (teams.map (fun t => t.name)).Nodup) :
    ∀ pen, ∀ t ∈ teams,
    alGetD (teams.foldl (penaltyStep gs r nr rr) pen) t.name 0
      = alGetD pen t.name 0
        + (if teamTradedInRound gs r t.name then 0
           else value_rs t gs.commodities * nr)
        + (if check_min_max_violation gs t then value_rs t gs.commodities * rr
           else 0) := by
  induction teams with
  | nil => intro pen t ht; simp at ht
  | cons t0 rest ih =>
    intro pen t ht
    rw [List.map_cons, List.nodup_cons] at hnodup
    rw [List.foldl_cons]
    rcases List.mem_cons.mp ht with rfl | hmem
    · rw [penaltyFold_frame gs r nr rr rest _ _ _ hnodup.1,
        penaltyStep_same gs r nr rr pen t]
    · have hne : t.name ≠ t0.name := by
        intro hcontra
        exact hnodup.1 (hcontra ▸ List.mem_map_of_mem (fun t => t.name) hmem)
      rw [ih hnodup.2 _ t hmem,
        penaltyStep_other gs r nr rr pen t0 t.name 0 hne]

/-- C9: ending a round adds to each team's accumulated penalty exactly
`p1 + p2`, where `p1` is `no_trade_rate` (0.10 as called) of the team's
current portfolio value when the team appears in no trade of the round
(else 0), and `p2` is — independently and additively — `range_rate` of the
same value when some holding breaks its band, a zero bound being
unconstrained (else 0); in particular a team that traded but violated a
band incurs only `p2`. -/
theorem penalty_computation (gs : GameState) (round_no : ℤ) (nr rr : ℚ)
    (hnodup : (gs.teams.map (fun t => t.name)).Nodup)
    (t : Team) (ht : t ∈ gs.teams) :
    alGetD (apply_round_penalties gs round_no nr rr).penalties_rs t.name 0
      = alGetD gs.penalties_rs t.name 0
        + (if teamTradedInRound gs round_no t.name then 0
           else value_rs t gs.commodities * nr)
        + (if check_min_max_violation gs t then value_rs t gs.commodities * rr
           else 0) := by
  unfold apply_round_penalties
  exact penaltyFold_main gs round_no nr rr gs.teams hnodup gs.penalties_rs t ht

/-- Witness for C9: team `T1` of the fixture (no trades recorded, bands
unconstrained) at the server's 0.10 rates. -/
theorem penalty_computation_witness :
    alGetD (apply_round_penalties gsFix 1 0.1 0.1).penalties_rs
        (teamFix "T1" 5 8).name 0
      = alGetD gsFix.penalties_rs (teamFix "T1" 5 8).name 0
        + (if teamTradedInRound gsFix 1 (teamFix "T1" 5 8).name then 0
           else value_rs (teamFix "T1" 5 8) gsFix.commodities * 0.1)
        + (if check_min_max_violation gsFix (teamFix "T1" 5 8)
           then value_rs (teamFix "T1" 5 8) gsFix.commodities * 0.1
           else 0) :=
  penalty_computation gsFix 1 0.1 0.1 (by decide) (teamFix "T1" 5 8) (by decide)

/-! ## C7 — idempotent round close (`server.py: end_round`) -/

/-- C7: with round `r` open and not yet ended, the first `end_round` call
applies the 0.10-rate penalties exactly once, writes exactly one Excel log
event, marks `r` ended, and reports success; it leaves `r` current and
marked, so that — like for any state whose current round is already
marked — every subsequent call returns the already-ended indication and
the exact same state, applying no penalties and logging nothing. -/
theorem end_round_idempotent (s : ServerState) (r : ℤ)
    (hr : s.gs.current_round = r) (hr0 : r ≠ 0)
    (hnew : s.ended_rounds.contains r = false) :
    (end_round s).2 = EndRoundMsg.ended r ∧
    (end_round s).1.gs = apply_round_penalties s.gs r 0.1 0.1 ∧
    (end_round s).1.excel_log = s.excel_log ++ [r] ∧
    (end_round s).1.ended_rounds = s.ended_rounds ++ [r] ∧
    (end_round s).1.gs.current_round = r ∧
    (end_round s).1.ended_rounds.contains r = true ∧
    (∀ s2 : ServerState, s2.gs.current_round = r →
      s2.ended_rounds.contains r = true →
      end_round s2 = (s2, EndRoundMsg.alreadyEnded r)) := by
  subst hr
  have hfirst : end_round s = ({ gs := apply_round_penalties s.gs s.gs.current_round 0.1 0.1, ended_rounds := s.ended_rounds ++ [s.gs.current_round], excel_log := s.excel_log ++ [s.gs.current_round] }, EndRoundMsg.ended s.gs.current_round) := by
    unfold end_round
    rw [if_neg hr0, if_neg (by rw [hnew]; exact Bool.false_ne_true)]
  rw [hfirst]
  refine ⟨rfl, ?_, rfl, rfl, ?_, ?_, ?_⟩
  · show apply_round_penalties s.gs s.gs.current_round 0.1 0.1
      = apply_round_penalties s.gs s.gs.current_round 0.1 0.1
    rfl
  · show (apply_round_penalties s.gs s.gs.current_round 0.1 0.1).current_round
      = s.gs.current_round
    unfold apply_round_penalties
    rfl
  · show (s.ended_rounds ++ [s.gs.current_round]).contains s.gs.current_round = true
    simp
  · intro s2 h2r h2mem
    unfold end_round
    rw [if_neg (by rw [h2r]; exact hr0)]
    dsimp only
    rw [if_pos (by rw [h2r]; exact h2mem), h2r]

/-- Witness for C7 at the fixture session (round 1 open, nothing ended). -/
theorem end_round_idempotent_witness :
    (end_round { gs := gsFix }).2 = EndRoundMsg.ended 1 ∧
    (end_round { gs := gsFix }).1.gs = apply_round_penalties gsFix 1 0.1 0.1 ∧
    (end_round { gs := gsFix }).1.excel_log = ([] : List ℤ) ++ [1] ∧
    (end_round { gs := gsFix }).1.ended_rounds = ([] : List ℤ) ++ [1] ∧
    (end_round { gs := gsFix }).1.gs.current_round = 1 ∧
    (end_round { gs := gsFix }).1.ended_rounds.contains 1 = true ∧
    (∀ s2 : ServerState, s2.gs.current_round = 1 →
      s2.ended_rounds.contains 1 = true →
      end_round s2 = (s2, EndRoundMsg.alreadyEnded 1)) :=
  end_round_idempotent { gs := gsFix } 1 rfl (by decide) (by decide)

/-! ## C3 — fairness of the initial allocation

Plan: under the state validity the initializer establishes (ratios ≥ 1,
prices `BASE_PRICE_RS / ratio`, unique names), every band multiplier is
the same for every commodity (the per-commodity ratio cancels), the final
holding-band clamp never fires, each bonus pick adds exactly
`BASE_PRICE_RS` of value, and so every team's portfolio is worth exactly
`K_total * BASE_PRICE_RS`. -/

/-- The ratio cancels out of every band-multiplier computation. -/
theorem band_arg_cancel (b x : ℚ) (r : ℤ) (hr : 1 ≤ r) :
    b * (r : ℚ) * x / (r : ℚ) = b * x := by
  have hne : (r : ℚ) ≠ 0 := by
    exact_mod_cast (by omega : r ≠ 0)
  field_simp
  ring

/-- `setBands` on a commodity of ratio at least 1: all four band fields are
the shared multipliers times the ratio. -/
theorem setBands_eq (bte : ℚ) (c : Commodity) (hr : 1 ≤ c.base_ratio) :
    setBands bte c = { c with
      alloc_min_units := max 1 ⌊bte * 0.85⌋ * c.base_ratio,
      alloc_max_units := max (max 1 ⌊bte * 0.85⌋ + 1) ⌊bte * 1.15⌋ * c.base_ratio,
      min_units := max 1 ⌊bte * 0.70⌋ * c.base_ratio,
      max_units := max (max 1 ⌊bte * 0.70⌋ + 1) ⌊bte * 1.30⌋ * c.base_ratio } := by
  unfold setBands
  dsimp only
  rw [max_eq_right hr]
  rw [band_arg_cancel bte 0.85 c.base_ratio hr,
    band_arg_cancel bte 1.15 c.base_ratio hr,
    band_arg_cancel bte 0.70 c.base_ratio hr,
    band_arg_cancel bte 1.30 c.base_ratio hr]

/-- The four shared multipliers: allocation bounds nest strictly inside
the holding bounds once the base target is at least 3. -/
theorem multiplier_facts (b : ℚ) (hb : 3 ≤ b) :
    2 ≤ max 1 ⌊b * 0.85⌋ ∧
    max 1 ⌊b * 0.85⌋ + 1 ≤ max (max 1 ⌊b * 0.85⌋ + 1) ⌊b * 1.15⌋ ∧
    max 1 ⌊b * 0.70⌋ ≤ max 1 ⌊b * 0.85⌋ ∧
    max (max 1 ⌊b * 0.85⌋ + 1) ⌊b * 1.15⌋
      ≤ max (max 1 ⌊b * 0.70⌋ + 1) ⌊b * 1.30⌋ := by
  have h85 : (2 : ℤ) ≤ ⌊b * 0.85⌋ := by
    have : (2 : ℚ) ≤ b * 0.85 := by nlinarith
    exact Int.le_floor.mpr (by exact_mod_cast this)
  have hmono : ⌊b * 1.15⌋ ≤ ⌊b * 1.30⌋ := by
    apply Int.floor_le_floor
    nlinarith
  have hjump : ⌊b * 0.85⌋ + 1 ≤ ⌊b * 1.30⌋ := by
    have h1 : b * 0.85 + 1 ≤ b * 1.30 := by nlinarith
    have h2 : (⌊b * 0.85⌋ : ℚ) + 1 ≤ b * 0.85 + 1 := by
      have := Int.floor_le (b * 0.85)
      linarith
    have h3 : (⌊b * 0.85⌋ + 1 : ℤ) ≤ ⌊b * 1.30⌋ := by
      apply Int.le_floor.mpr
      push_cast
      linarith
    exact h3
  have h70 : ⌊b * 0.70⌋ ≤ ⌊b * 0.85⌋ := by
    apply Int.floor_le_floor
    nlinarith
  refine ⟨by omega, le_max_left _ _, by omega, ?_⟩
  rw [max_le_iff]
  constructor
  · omega
  · omega

/-- With unique names, name search resolves each member to itself. -/
theorem find?_of_mem_nodup (cs : List Commodity) (c : Commodity)
    (hmem : c ∈ cs) (hnodup : (cs.map (fun c => c.name)).Nodup) :
    cs.find? (fun x => x.name = c.name) = some c := by
  induction cs with
  | nil => simp at hmem
  | cons c0 rest ih =>
    rw [List.map_cons, List.nodup_cons] at hnodup
    rcases List.mem_cons.mp hmem with rfl | hmem'
    · simp [List.find?]
    · have hne : ¬ c0.name = c.name := by
        intro hcontra
        exact hnodup.1 (hcontra ▸ List.mem_map_of_mem (fun c => c.name) hmem')
      simp only [List.find?]
      rw [show (decide (c0.name = c.name)) = false from by simp [hne]]
      exact ih hmem' hnodup.2

/-- `ratioOf` resolves each member of a uniquely-named registry to its own
ratio. -/
theorem ratioOf_of_mem_nodup (cs : List Commodity) (c : Commodity)
    (hmem : c ∈ cs) (hnodup : (cs.map (fun c => c.name)).Nodup) :
    ratioOf cs c.name = c.base_ratio := by
  unfold ratioOf findCommodity
  rw [find?_of_mem_nodup cs c hmem hnodup]
  rfl

/-- Lookup in an association list built by mapping over a uniquely-named
registry. -/
theorem alGetD_map_built (cs : List Commodity) (f : Commodity → ℤ)
    (c : Commodity) (d : ℤ) (hmem : c ∈ cs)
    (hnodup : (cs.map (fun c => c.name)).Nodup) :
    alGetD (cs.map (fun c => (c.name, f c))) c.name d = f c := by
  induction cs with
  | nil => simp at hmem
  | cons c0 rest ih =>
    rw [List.map_cons, List.nodup_cons] at hnodup
    rcases List.mem_cons.mp hmem with rfl | hmem'
    · simp [alGetD]
    · have hne : ¬ c0.name = c.name := by
        intro hcontra
        exact hnodup.1 (hcontra ▸ List.mem_map_of_mem (fun c => c.name) hmem')
      simp only [List.map_cons, alGetD, hne, if_false]
      exact ih hmem' hnodup.2

/-- Every key of such an association list is a registry name. -/
theorem alGetD_map_built_default (cs : List Commodity) (f : Commodity → ℤ)
    (n : String) (d : ℤ) (hn : n ∉ cs.map (fun c => c.name)) :
    alGetD (cs.map (fun c => (c.name, f c))) n d = d := by
  induction cs with
  | nil => rfl
  | cons c0 rest ih =>
    simp only [List.map_cons, List.mem_cons] at hn
    push_neg at hn
    simp only [List.map_cons, alGetD,
      show ¬ c0.name = n from fun h => hn.1 h.symm, if_false]
    exact ih hn.2

/-- Applying picks raises each name's holding by its pick count times its
registry ratio. -/
theorem applyPicks_getD (cs : List Commodity) (picks : List String) :
    ∀ h n, alGetD (applyPicks cs picks h) n 0
      = alGetD h n 0 + (picks.count n : ℤ) * ratioOf cs n := by
  induction picks with
  | nil => intro h n; simp [applyPicks]
  | cons p rest ih =>
    intro h n
    show alGetD (applyPicks cs rest (alSet h p (alGetD h p 0 + ratioOf cs p))) n 0 = _
    rw [ih]
    by_cases hn : n = p
    · subst hn
      rw [alGetD_alSet_same]
      rw [List.count_cons_self]
      push_cast
      ring
    · rw [alGetD_alSet_other _ _ _ _ _ hn,
        List.count_cons_of_ne (fun h => hn h) rest]

/-- The safety clamp is the identity on all lookups when every holding
already sits inside its band. -/
theorem clampHoldings_id (cs : List Commodity) :
    ∀ h, (∀ c ∈ cs, alGetD h c.name 0 ≤ c.max_units ∧
        c.min_units ≤ alGetD h c.name 0) →
    ∀ n, alGetD (clampHoldings cs h) n 0 = alGetD h n 0 := by
  induction cs with
  | nil => intro h _ n; rfl
  | cons c0 rest ih =>
    intro h hin n
    obtain ⟨hmax, hmin⟩ := hin c0 (List.mem_cons_self _ _)
    show alGetD (clampHoldings rest
      (alSet h c0.name (if alGetD h c0.name 0 > c0.max_units then c0.max_units
        else if alGetD h c0.name 0 < c0.min_units then c0.min_units
        else alGetD h c0.name 0))) n 0 = _
    rw [if_neg (by omega), if_neg (by omega)]
    have hpt : ∀ m, alGetD (alSet h c0.name (alGetD h c0.name 0)) m 0
        = alGetD h m 0 := by
      intro m
      by_cases hm : m = c0.name
      · subst hm
        rw [alGetD_alSet_same]
      · rw [alGetD_alSet_other _ _ _ _ _ hm]
    rw [ih _ (fun c hc => by rw [hpt c.name]; exact hin c (List.mem_cons_of_mem _ hc)) n,
      hpt n]

/-- Sum of a pointwise addition. -/
theorem sum_map_add {α M : Type} [AddCommMonoid M] (l : List α) (f g : α → M) :
    (l.map (fun a => f a + g a)).sum = (l.map f).sum + (l.map g).sum := by
  induction l with
  | nil => simp
  | cons a t ih =>
    simp only [List.map_cons, List.sum_cons, ih]
    abel

/-- Summing the count of each of a family of distinct names over a list
drawn from those names yields the list's length. -/
theorem sum_counts_eq_length (names : List String) (hnodup : names.Nodup) :
    ∀ l : List String, (∀ x ∈ l, x ∈ names) →
    (names.map (fun n => (l.count n : ℤ))).sum = l.length := by
  intro l
  induction l with
  | nil =>
    intro _
    simp
  | cons x rest ih =>
    intro hsub
    have hx : x ∈ names := hsub x (List.mem_cons_self _ _)
    have hone : (names.map (fun n => if n = x then (1 : ℤ) else 0)).sum = 1 := by
      clear ih hsub
      induction names with
      | nil => simp at hx
      | cons n0 ns ihn =>
        rw [List.nodup_cons] at hnodup
        rcases List.mem_cons.mp hx with rfl | hx'
        · simp only [List.map_cons, List.sum_cons, if_pos rfl]
          have hz : (ns.map (fun n => if n = x then (1 : ℤ) else 0)).sum = 0 := by
            have : ∀ n ∈ ns, (if n = x then (1 : ℤ) else 0) = 0 := by
              intro n hn
              rw [if_neg]
              intro hcontra
              exact hnodup.1 (hcontra ▸ hn)
            rw [List.map_congr_left this]
            simp
          rw [hz]
          simp
        · rw [List.map_cons, List.sum_cons,
            if_neg (fun h : n0 = x => hnodup.1 (by rw [h]; exact hx')),
            ihn hnodup.2 hx']
          ring
    have hcc : ∀ n ∈ names, ((x :: rest).count n : ℤ)
        = (rest.count n : ℤ) + (if n = x then (1 : ℤ) else 0) := by
      intro n _
      by_cases h : n = x
      · rw [if_pos h, h, List.count_cons_self]
        push_cast
        ring
      · rw [if_neg h, List.count_cons_of_ne h]
        ring
    rw [List.map_congr_left hcc, sum_map_add,
      ih (fun y hy => hsub y (List.mem_cons_of_mem _ hy)), hone,
      List.length_cons]
    push_cast
    ring

/-- Sum of a constant map. -/
theorem sum_map_const_q {α : Type} (l : List α) (k : ℚ) :
    (l.map (fun _ => k)).sum = (l.length : ℚ) * k := by
  induction l with
  | nil => simp
  | cons a t ih =>
    simp only [List.map_cons, List.sum_cons, List.length_cons, ih]
    push_cast
    ring

/-- Sum of a constant map, over integers. -/
theorem sum_map_const_int {α : Type} (l : List α) (k : ℤ) :
    (l.map (fun _ => k)).sum = (l.length : ℤ) * k := by
  induction l with
  | nil => simp
  | cons a t ih =>
    simp only [List.map_cons, List.sum_cons, List.length_cons, ih]
    push_cast
    ring

/-- Casting a mapped integer sum into the rationals. -/
theorem sum_map_cast {α : Type} (l : List α) (f : α → ℤ) :
    (l.map (fun a => ((f a : ℤ) : ℚ))).sum = (((l.map f).sum : ℤ) : ℚ) := by
  induction l with
  | nil => simp
  | cons a t ih =>
    simp only [List.map_cons, List.sum_cons, ih]
    push_cast
    ring

/-- Every slot in the pool is a registry name. -/
theorem mem_baseUnitSlots (cs : List Commodity) (x : String)
    (hx : x ∈ baseUnitSlots cs) : x ∈ cs.map (fun c => c.name) := by
  induction cs with
  | nil => simp [baseUnitSlots] at hx
  | cons c0 rest ih =>
    unfold baseUnitSlots at hx ih
    rw [List.map_cons, List.flatten_cons, List.mem_append] at hx
    rcases hx with hx | hx
    · split at hx
      · rw [List.eq_of_mem_replicate hx]
        exact List.mem_cons_self _ _
      · simp at hx
    · exact List.mem_cons_of_mem _ (ih hx)

/-- With unique names, a registry member's name occurs in the slot pool
exactly its capacity's worth of times. -/
theorem count_baseUnitSlots (cs : List Commodity) (c : Commodity)
    (hmem : c ∈ cs) (hnodup : (cs.map (fun c => c.name)).Nodup) :
    (baseUnitSlots cs).count c.name = (capacityOf c).toNat := by
  induction cs with
  | nil => simp at hmem
  | cons c0 rest ih =>
    rw [List.map_cons, List.nodup_cons] at hnodup
    unfold baseUnitSlots
    rw [List.map_cons, List.flatten_cons, List.count_append]
    rcases List.mem_cons.mp hmem with rfl | hmem'
    · have hz : (baseUnitSlots rest).count c.name = 0 := by
        rw [List.count_eq_zero]
        intro hcontra
        exact hnodup.1 (mem_baseUnitSlots rest c.name hcontra)
      unfold baseUnitSlots at hz
      rw [hz]
      split
      · rw [List.count_replicate_self]
        omega
      · rename_i hcap
        simp only [List.count_nil]
        omega
    · have hne : c0.name ≠ c.name := by
        intro hcontra
        exact hnodup.1 (hcontra ▸ List.mem_map_of_mem (fun c => c.name) hmem')
      have hz : (List.count c.name
          (if capacityOf c0 > 0
           then List.replicate (capacityOf c0).toNat c0.name
           else [])) = 0 := by
        split
        · rw [List.count_replicate]
          rw [if_neg (by simp [hne])]
        · rfl
      rw [hz]
      have hrest := ih hmem' hnodup.2
      unfold baseUnitSlots at hrest
      omega

/-- The slot pool's length is the total capacity, once every capacity is
positive. -/
theorem length_baseUnitSlots (cs : List Commodity)
    (hpos : ∀ c ∈ cs, 0 < capacityOf c) :
    ((baseUnitSlots cs).length : ℤ) = (cs.map capacityOf).sum := by
  induction cs with
  | nil => simp [baseUnitSlots]
  | cons c0 rest ih =>
    have hc0 := hpos c0 (List.mem_cons_self _ _)
    unfold baseUnitSlots
    rw [List.map_cons, List.flatten_cons, List.length_append,
      if_pos hc0, List.length_replicate, List.map_cons, List.sum_cons]
    have hrest := ih (fun c hc => hpos c (List.mem_cons_of_mem _ hc))
    unfold baseUnitSlots at hrest
    push_cast
    omega

/-- The slot pool is nonempty for a nonempty registry with positive
capacities. -/
theorem baseUnitSlots_ne_nil (cs : List Commodity) (hne : cs ≠ [])
    (hpos : ∀ c ∈ cs, 0 < capacityOf c) :
    baseUnitSlots cs ≠ [] := by
  intro hcontra
  cases cs with
  | nil => exact hne rfl
  | cons c0 rest =>
    have hc0 := hpos c0 (List.mem_cons_self _ _)
    unfold baseUnitSlots at hcontra
    rw [List.map_cons, List.flatten_cons, if_pos hc0,
      List.append_eq_nil] at hcontra
    have hlen := congrArg List.length hcontra.1
    rw [List.length_replicate] at hlen
    simp only [List.length_nil] at hlen
    omega

/-- Sum of a pointwise right multiplication. -/
theorem sum_map_mul_right {α : Type} (l : List α) (f : α → ℚ) (k : ℚ) :
    (l.map (fun a => f a * k)).sum = (l.map f).sum * k := by
  induction l with
  | nil => simp
  | cons a t ih =>
    simp only [List.map_cons, List.sum_cons, ih]
    ring

/-- Under the band characterization, every capacity is the shared
multiplier difference. -/
theorem capacityOf_eq (cs2 : List Commodity) (amin amax hmin hmax : ℤ)
    (hchar : bandChar cs2 amin amax hmin hmax) :
    ∀ c ∈ cs2, capacityOf c = amax - amin := by
  intro c hc
  obtain ⟨hr, _, hmin', hmax', _, _⟩ := hchar c hc
  unfold capacityOf
  rw [hmin', hmax', ← sub_mul]
  exact Int.mul_fdiv_cancel _ (by omega)

/-- The holdings a fixed pick multiset produces, clamped, are worth
exactly `(N * amin + picks.length) * BASE_PRICE_RS`. -/
theorem picks_value (cs2 : List Commodity) (amin amax hmin hmax : ℤ)
    (hchar : bandChar cs2 amin amax hmin hmax)
    (hnodup : (cs2.map (fun c => c.name)).Nodup)
    (h2 : amin ≤ amax) (h3 : hmin ≤ amin) (h4 : amax ≤ hmax)
    (picks : List String)
    (hsub : List.Subperm picks (baseUnitSlots cs2))
    (t : Team) :
    value_rs { t with holdings := clampHoldings cs2 (applyPicks cs2 picks
        (cs2.map (fun c => (c.name, c.alloc_min_units)))) } cs2
      = ((cs2.length : ℚ) * (amin : ℚ) + (picks.length : ℚ)) * BASE_PRICE_RS := by
  have hcnt : ∀ c ∈ cs2, (picks.count c.name : ℤ) ≤ amax - amin := by
    intro c hc
    have h1 := List.Subperm.count_le hsub c.name
    rw [count_baseUnitSlots cs2 c hc hnodup, capacityOf_eq cs2 amin amax hmin hmax hchar c hc] at h1
    obtain ⟨hr, _, _, _, _, _⟩ := hchar c hc
    omega
  have hget1 : ∀ c ∈ cs2, alGetD (applyPicks cs2 picks
      (cs2.map (fun c => (c.name, c.alloc_min_units)))) c.name 0
        = (amin + (picks.count c.name : ℤ)) * c.base_ratio := by
    intro c hc
    rw [applyPicks_getD, alGetD_map_built cs2 _ c 0 hc hnodup,
      ratioOf_of_mem_nodup cs2 c hc hnodup, (hchar c hc).2.2.1]
    ring
  have hbounds : ∀ c ∈ cs2, alGetD (applyPicks cs2 picks
      (cs2.map (fun c => (c.name, c.alloc_min_units)))) c.name 0 ≤ c.max_units ∧
      c.min_units ≤ alGetD (applyPicks cs2 picks
        (cs2.map (fun c => (c.name, c.alloc_min_units)))) c.name 0 := by
    intro c hc
    obtain ⟨hr, _, _, _, hminu, hmaxu⟩ := hchar c hc
    rw [hget1 c hc, hminu, hmaxu]
    have hc1 := hcnt c hc
    constructor
    · apply mul_le_mul_of_nonneg_right _ (by omega : (0:ℤ) ≤ c.base_ratio)
      omega
    · apply mul_le_mul_of_nonneg_right _ (by omega : (0:ℤ) ≤ c.base_ratio)
      omega
  have hclamp := clampHoldings_id cs2 _ hbounds
  unfold value_rs
  dsimp only
  have hterm : ∀ c ∈ cs2,
      ((alGetD (clampHoldings cs2 (applyPicks cs2 picks
        (cs2.map (fun c => (c.name, c.alloc_min_units))))) c.name 0 : ℤ) : ℚ) * c.price
      = (amin : ℚ) * BASE_PRICE_RS + (picks.count c.name : ℚ) * BASE_PRICE_RS := by
    intro c hc
    obtain ⟨hr, hprice, _, _, _, _⟩ := hchar c hc
    rw [hclamp c.name, hget1 c hc, hprice]
    have hrne : (c.base_ratio : ℚ) ≠ 0 := by
      exact_mod_cast (by omega : c.base_ratio ≠ 0)
    push_cast
    field_simp
    ring
  rw [List.map_congr_left hterm, sum_map_add, sum_map_const_q, sum_map_mul_right]
  have hsum : (cs2.map (fun c => (picks.count c.name : ℚ))).sum
      = (picks.length : ℚ) := by
    have hmm : cs2.map (fun c => (picks.count c.name : ℚ))
        = (cs2.map (fun c => c.name)).map (fun n => ((picks.count n : ℤ) : ℚ)) := by
      rw [List.map_map]
      apply List.map_congr_left
      intro c _
      push_cast
      rfl
    rw [hmm, sum_map_cast, sum_counts_eq_length (cs2.map (fun c => c.name)) hnodup
      picks (fun x hx => mem_baseUnitSlots cs2 x (hsub.subset hx))]
    push_cast
    ring
  rw [hsum]
  ring

/-- One team's allocation, by picks or by minimums alone, is worth exactly
`(N * amin + K_extra) * BASE_PRICE_RS`. -/
theorem allocOne_value (R : RandomModule) (cs2 : List Commodity)
    (amin amax hmin hmax : ℤ)
    (hchar : bandChar cs2 amin amax hmin hmax)
    (hnodup : (cs2.map (fun c => c.name)).Nodup)
    (h2 : amin ≤ amax) (h3 : hmin ≤ amin) (h4 : amax ≤ hmax)
    (kx : ℤ) (hkx0 : 0 ≤ kx)
    (hkxle : kx ≤ ((baseUnitSlots cs2).length : ℤ))
    (rng : R.St) (t : Team) :
    value_rs { t with holdings
        := (allocOne R cs2 kx (baseUnitSlots cs2) rng).1 } cs2
      = ((cs2.length : ℚ) * (amin : ℚ) + (kx : ℚ)) * BASE_PRICE_RS := by
  unfold allocOne
  dsimp only
  by_cases hpos : kx > 0
  · rw [if_pos ⟨hpos, hkxle⟩]
    dsimp only
    have hk : kx.toNat ≤ (baseUnitSlots cs2).length := Int.toNat_le.mpr hkxle
    obtain ⟨hlen, hsub⟩ := R.sample_spec rng (baseUnitSlots cs2) kx.toNat hk
    rw [picks_value cs2 amin amax hmin hmax hchar hnodup h2 h3 h4 _ hsub t, hlen]
    have hcast : ((kx.toNat : ℕ) : ℚ) = (kx : ℚ) := by
      rw [← Int.cast_natCast (R := ℚ), Int.toNat_of_nonneg hkx0]
    rw [hcast]
  · rw [if_neg (fun hcontra => hpos hcontra.1)]
    dsimp only
    have hz : kx = 0 := by omega
    have h0eq : (cs2.map (fun c => (c.name, c.alloc_min_units)))
        = applyPicks cs2 [] (cs2.map (fun c => (c.name, c.alloc_min_units))) := rfl
    rw [h0eq, picks_value cs2 amin amax hmin hmax hchar hnodup h2 h3 h4 []
      List.nil_subperm t, hz]
    simp

/-- Every team the allocation loop emits has the same portfolio value. -/
theorem allocTeams_value (R : RandomModule) (cs2 : List Commodity)
    (kx : ℤ) (slots : List String) (V : ℚ)
    (hval : ∀ (rng : R.St) (t : Team), value_rs { t with
        holdings := (allocOne R cs2 kx slots rng).1 } cs2 = V) :
    ∀ (ts : List Team) (rng : R.St),
      ∀ t' ∈ (allocTeams R cs2 kx slots ts rng).1, value_rs t' cs2 = V := by
  intro ts
  induction ts with
  | nil =>
    intro rng t' ht'
    simp [allocTeams] at ht'
  | cons t rest ih =>
    intro rng t' ht'
    unfold allocTeams at ht'
    dsimp only at ht'
    rcases List.mem_cons.mp ht' with rfl | hmem
    · exact hval rng t
    · exact ih _ t' hmem

/-- C3: on every valid session (non-empty uniquely-named registry with
ratios at least 1 and derived prices, base set, non-empty ledger) and every
target hint, the generator succeeds and returns a common value
`K_total * BASE_PRICE_RS` that every team's portfolio is then exactly
worth. -/
theorem initial_portfolio_fairness (R : RandomModule) (gs : GameState)
    (rng : R.St) (target : ℚ) (hv : validForGenerator gs) :
    ∃ gs' rngF V, generate_initial_portfolios_with_ranges R gs rng target
        = Except.ok (gs', rngF, V) ∧
      ∀ t ∈ gs'.teams, value_rs t gs'.commodities = V := by
  obtain ⟨hcne, hbne, htne, hnodup, hcs⟩ := hv
  unfold generate_initial_portfolios_with_ranges
  rw [if_neg hcne, if_neg hbne, if_neg htne]
  dsimp only
  set N : ℕ := gs.commodities.length with hN
  set S0 := pyRound (target / BASE_PRICE_RS) with hS0
  set S : ℤ := if S0 < (N : ℤ) * 3 then (N : ℤ) * 3 else S0 with hS
  set bte : ℚ := (S : ℚ) / (N : ℚ) with hbte
  set amin : ℤ := max 1 ⌊bte * 0.85⌋ with hamin
  set amax : ℤ := max (amin + 1) ⌊bte * 1.15⌋ with hamax
  set hmin : ℤ := max 1 ⌊bte * 0.70⌋ with hhmin
  set hmax : ℤ := max (hmin + 1) ⌊bte * 1.30⌋ with hhmax
  have hNpos : 0 < N := by
    cases hgc : gs.commodities with
    | nil => exact absurd hgc hcne
    | cons c0 rest => rw [hN, hgc]; simp
  have hSge : (N : ℤ) * 3 ≤ S := by
    rw [hS]
    split <;> omega
  have hbge : 3 ≤ bte := by
    rw [hbte, le_div_iff₀ (by exact_mod_cast hNpos : (0:ℚ) < (N:ℚ))]
    have h3N : (((N : ℤ) * 3 : ℤ) : ℚ) ≤ ((S : ℤ) : ℚ) := by exact_mod_cast hSge
    push_cast at h3N
    linarith
  obtain ⟨hf1, hf2, hf3, hf4⟩ := multiplier_facts bte hbge
  have hsb : ∀ c ∈ gs.commodities, setBands bte c = { c with
      alloc_min_units := amin * c.base_ratio,
      alloc_max_units := amax * c.base_ratio,
      min_units := hmin * c.base_ratio,
      max_units := hmax * c.base_ratio } := by
    intro c hc
    rw [setBands_eq bte c (hcs c hc).1, hamin, hamax, hhmin, hhmax]
  set cs2 := gs.commodities.map (setBands bte) with hcs2
  have hnames2 : cs2.map (fun c => c.name) = gs.commodities.map (fun c => c.name) := by
    rw [hcs2, List.map_map]
    apply List.map_congr_left
    intro c hc
    simp only [Function.comp_apply]
    rw [hsb c hc]
  have hnodup2 : (cs2.map (fun c => c.name)).Nodup := by
    rw [hnames2]
    exact hnodup
  have hchar : bandChar cs2 amin amax hmin hmax := by
    intro c' hc'
    rw [hcs2] at hc'
    obtain ⟨c, hc, rfl⟩ := List.mem_map.mp hc'
    rw [hsb c hc]
    obtain ⟨hr, hp⟩ := hcs c hc
    exact ⟨hr, hp, rfl, rfl, rfl, rfl⟩
  have hlen2 : cs2.length = N := by
    rw [hcs2, List.length_map, hN]
  have hlower : (cs2.map (fun c =>
      c.alloc_min_units.fdiv (max 1 c.base_ratio))).sum = (N : ℤ) * amin := by
    have : ∀ c ∈ cs2, c.alloc_min_units.fdiv (max 1 c.base_ratio) = amin := by
      intro c hc
      obtain ⟨hr, _, ha, _, _, _⟩ := hchar c hc
      rw [ha, max_eq_right hr]
      exact Int.mul_fdiv_cancel _ (by omega)
    rw [List.map_congr_left this, sum_map_const_int, hlen2]
  have hupper : (cs2.map (fun c =>
      c.alloc_max_units.fdiv (max 1 c.base_ratio))).sum = (N : ℤ) * amax := by
    have hpt : ∀ c ∈ cs2, c.alloc_max_units.fdiv (max 1 c.base_ratio) = amax := by
      intro c hc
      obtain ⟨hr, _, _, ha, _, _⟩ := hchar c hc
      rw [ha, max_eq_right hr]
      exact Int.mul_fdiv_cancel _ (by omega)
    rw [List.map_congr_left hpt, sum_map_const_int, hlen2]
  have hcs2ne : cs2 ≠ [] := by
    rw [hcs2]
    intro hcontra
    exact hcne (List.map_eq_nil_iff.mp hcontra)
  have hcappos : ∀ c ∈ cs2, 0 < capacityOf c := by
    intro c hc
    rw [capacityOf_eq cs2 amin amax hmin hmax hchar c hc]
    omega
  have hslotsne : baseUnitSlots cs2 ≠ [] := baseUnitSlots_ne_nil cs2 hcs2ne hcappos
  have hslotlen : ((baseUnitSlots cs2).length : ℤ) = (N : ℤ) * (amax - amin) := by
    rw [length_baseUnitSlots cs2 hcappos,
      List.map_congr_left (capacityOf_eq cs2 amin amax hmin hmax hchar),
      sum_map_const_int, hlen2]
  rw [← hamin] at hf1 hf2 hf3 hf4
  rw [← hamax] at hf2 hf4
  rw [← hhmin] at hf3 hf4
  rw [← hhmax] at hf4
  rw [hlower, hupper, if_neg hslotsne]
  set Ktot : ℤ := if S < (N : ℤ) * amin then (N : ℤ) * amin
    else if S > (N : ℤ) * amax then (N : ℤ) * amax else S with hKtot
  set Kx : ℤ := if (if Ktot - (N : ℤ) * amin < 0 then 0
      else Ktot - (N : ℤ) * amin) > (N : ℤ) * amax - (N : ℤ) * amin
    then (N : ℤ) * amax - (N : ℤ) * amin
    else if Ktot - (N : ℤ) * amin < 0 then 0
      else Ktot - (N : ℤ) * amin with hKx
  have hNge : (0 : ℤ) ≤ (N : ℤ) := Int.natCast_nonneg N
  have hlowle : (N : ℤ) * amin ≤ (N : ℤ) * amax :=
    mul_le_mul_of_nonneg_left (by omega) hNge
  have hKt1 : (N : ℤ) * amin ≤ Ktot ∧ Ktot ≤ (N : ℤ) * amax := by
    rw [hKtot]
    split_ifs <;> omega
  have hKxeq : Kx = Ktot - (N : ℤ) * amin := by
    rw [hKx]
    split_ifs <;> omega
  have hKx0 : (0 : ℤ) ≤ Kx := by omega
  have hdist : (N : ℤ) * (amax - amin) = (N : ℤ) * amax - (N : ℤ) * amin := by
    ring
  have hKxle : Kx ≤ ((baseUnitSlots cs2).length : ℤ) := by
    rw [hslotlen]
    omega
  refine ⟨_, _, _, rfl, ?_⟩
  dsimp only
  have hZ : (N : ℤ) * amin + Kx = Ktot := by omega
  have hval : ∀ (rng0 : R.St) (t : Team), value_rs { t with
      holdings := (allocOne R cs2 Kx (baseUnitSlots cs2) rng0).1 } cs2
        = ((Ktot : ℤ) : ℚ) * BASE_PRICE_RS := by
    intro rng0 t
    rw [allocOne_value R cs2 amin amax hmin hmax hchar hnodup2 (by omega)
      (by omega) (by omega) Kx hKx0 hKxle rng0 t, hlen2]
    have hq : ((N : ℕ) : ℚ) * ((amin : ℤ) : ℚ) + ((Kx : ℤ) : ℚ)
        = ((Ktot : ℤ) : ℚ) := by
      exact_mod_cast hZ
    rw [hq]
  exact allocTeams_value R cs2 Kx (baseUnitSlots cs2) _ hval gs.teams _

/-- Witness for C3: the fixture session, the prefix sampler, and the
default two-million target. -/
theorem initial_portfolio_fairness_witness :
    ∃ gs' rngF V,
      generate_initial_portfolios_with_ranges takeSampler gsFix ((0 : ℕ) : takeSampler.St) 2000000
        = Except.ok (gs', rngF, V) ∧
      ∀ t ∈ gs'.teams, value_rs t gs'.commodities = V :=
  initial_portfolio_fairness takeSampler gsFix ((0 : ℕ) : takeSampler.St) 2000000
    (by
      refine ⟨by decide, by decide, by decide, by decide, ?_⟩
      intro c hc
      rcases List.mem_cons.mp hc with rfl | hc2
      · constructor
        · decide
        · norm_num [cFixA, BASE_PRICE_RS]
      · rcases List.mem_cons.mp hc2 with rfl | hc3
        · constructor
          · decide
          · norm_num [cFixB, BASE_PRICE_RS]
        · simp at hc3)

/-! ## C4 — generator determinism

The claim fails as stated: the holdings depend on
`round(target / BASE_PRICE)` as well as on the seed triple's
`int(target)`, and the generator reseeds the *shared* process-wide random
module rather than a private source.  What does hold: with equal team
names, equal commodity names and ratios, and target hints agreeing both as
`int(target)` and as `round(target / BASE_PRICE)`, two calls produce
identical holdings for every team *whatever* random state each call starts
from — interleaved random-consuming calls cannot break it, because each
call overwrites the shared state by reseeding from its inputs. -/

theorem commodityKey_fields {ca cb : Commodity}
    (h : commodityKey ca = commodityKey cb) :
    ca.name = cb.name ∧ ca.base_ratio = cb.base_ratio ∧
    ca.alloc_min_units = cb.alloc_min_units ∧
    ca.alloc_max_units = cb.alloc_max_units ∧
    ca.min_units = cb.min_units ∧ ca.max_units = cb.max_units := by
  unfold commodityKey at h
  simp only [Prod.mk.injEq] at h
  exact h

/-- A map that only reads the key fields is determined by them. -/
theorem map_key_congr {β : Type} (g : Commodity → β)
    (hg : ∀ ca cb, commodityKey ca = commodityKey cb → g ca = g cb) :
    ∀ (csa csb : List Commodity),
      csa.map commodityKey = csb.map commodityKey → csa.map g = csb.map g := by
  intro csa
  induction csa with
  | nil =>
    intro csb h
    have hb : csb = [] := List.map_eq_nil_iff.mp h.symm
    rw [hb]
  | cons ca resta ih =>
    intro csb h
    cases csb with
    | nil => simp at h
    | cons cb restb =>
      simp only [List.map_cons, List.cons.injEq] at h
      simp only [List.map_cons, hg ca cb h.1, ih restb h.2]

/-- `ratioOf` is determined by the key fields. -/
theorem ratioOf_key_congr :
    ∀ (csa csb : List Commodity),
      csa.map commodityKey = csb.map commodityKey →
      ∀ n, ratioOf csa n = ratioOf csb n := by
  intro csa
  induction csa with
  | nil =>
    intro csb h n
    have hb : csb = [] := List.map_eq_nil_iff.mp h.symm
    rw [hb]
  | cons ca resta ih =>
    intro csb h n
    cases csb with
    | nil => simp at h
    | cons cb restb =>
      simp only [List.map_cons, List.cons.injEq] at h
      obtain ⟨hname, hratio, -, -, -, -⟩ := commodityKey_fields h.1
      unfold ratioOf findCommodity
      simp only [List.find?]
      rw [hname]
      by_cases hn : cb.name = n
      · rw [show (decide (cb.name = n)) = true from by simp [hn]]
        simp [hratio]
      · rw [show (decide (cb.name = n)) = false from by simp [hn]]
        exact ih restb h.2 n

/-- `applyPicks` is determined by the key fields. -/
theorem applyPicks_key_congr (csa csb : List Commodity)
    (h : csa.map commodityKey = csb.map commodityKey) :
    ∀ (picks : List String) (hold : List (String × ℤ)),
      applyPicks csa picks hold = applyPicks csb picks hold := by
  intro picks
  induction picks with
  | nil => intro hold; rfl
  | cons p rest ih =>
    intro hold
    show applyPicks csa rest _ = applyPicks csb rest _
    dsimp only
    rw [ratioOf_key_congr csa csb h p]
    exact ih _

/-- `clampHoldings` is determined by the key fields. -/
theorem clampHoldings_key_congr :
    ∀ (csa csb : List Commodity),
      csa.map commodityKey = csb.map commodityKey →
      ∀ hold, clampHoldings csa hold = clampHoldings csb hold := by
  intro csa
  induction csa with
  | nil =>
    intro csb h hold
    have hb : csb = [] := List.map_eq_nil_iff.mp h.symm
    rw [hb]
  | cons ca resta ih =>
    intro csb h hold
    cases csb with
    | nil => simp at h
    | cons cb restb =>
      simp only [List.map_cons, List.cons.injEq] at h
      obtain ⟨hname, -, -, -, hmin, hmax⟩ := commodityKey_fields h.1
      show clampHoldings resta _ = clampHoldings restb _
      dsimp only
      rw [hname, hmin, hmax]
      exact ih restb h.2 _

/-- The slot pool is determined by the key fields. -/
theorem baseUnitSlots_key_congr (csa csb : List Commodity)
    (h : csa.map commodityKey = csb.map commodityKey) :
    baseUnitSlots csa = baseUnitSlots csb := by
  unfold baseUnitSlots
  congr 1
  apply map_key_congr _ _ csa csb h
  intro ca cb hk
  obtain ⟨hname, hratio, hamin, hamax, -, -⟩ := commodityKey_fields hk
  unfold capacityOf
  rw [hname, hratio, hamin, hamax]

/-- `allocOne` is determined by the key fields. -/
theorem allocOne_key_congr (R : RandomModule) (csa csb : List Commodity)
    (h : csa.map commodityKey = csb.map commodityKey)
    (kx : ℤ) (slots : List String) (rng : R.St) :
    allocOne R csa kx slots rng = allocOne R csb kx slots rng := by
  unfold allocOne
  have hh0 : csa.map (fun c => (c.name, c.alloc_min_units))
      = csb.map (fun c => (c.name, c.alloc_min_units)) := by
    apply map_key_congr _ _ csa csb h
    intro ca cb hk
    obtain ⟨hname, -, hamin, -, -, -⟩ := commodityKey_fields hk
    rw [hname, hamin]
  rw [hh0]
  dsimp only
  by_cases hg : kx > 0 ∧ (kx : ℤ) ≤ (slots.length : ℤ)
  · rw [if_pos hg, if_pos hg]
    dsimp only
    rw [applyPicks_key_congr csa csb h, clampHoldings_key_congr csa csb h]
  · rw [if_neg hg, if_neg hg]
    dsimp only
    rw [clampHoldings_key_congr csa csb h]

/-- The team loop is determined by the key fields and the team names. -/
theorem allocTeams_key_congr (R : RandomModule) (csa csb : List Commodity)
    (h : csa.map commodityKey = csb.map commodityKey)
    (kx : ℤ) (slots : List String) :
    ∀ (tsa tsb : List Team),
      tsa.map (fun t => t.name) = tsb.map (fun t => t.name) →
      ∀ rng : R.St,
      (allocTeams R csa kx slots tsa rng).1.map (fun t => (t.name, t.holdings))
        = (allocTeams R csb kx slots tsb rng).1.map (fun t => (t.name, t.holdings)) ∧
      (allocTeams R csa kx slots tsa rng).2 = (allocTeams R csb kx slots tsb rng).2 := by
  intro tsa
  induction tsa with
  | nil =>
    intro tsb hts rng
    have hb : tsb = [] := List.map_eq_nil_iff.mp hts.symm
    rw [hb]
    exact ⟨rfl, rfl⟩
  | cons ta resta ih =>
    intro tsb hts rng
    cases tsb with
    | nil => simp at hts
    | cons tb restb =>
      simp only [List.map_cons, List.cons.injEq] at hts
      unfold allocTeams
      dsimp only
      rw [allocOne_key_congr R csa csb h kx slots rng]
      obtain ⟨ihmap, ihrng⟩ := ih restb hts.2 (allocOne R csb kx slots rng).2
      refine ⟨?_, ihrng⟩
      simp only [List.map_cons, List.cons.injEq]
      exact ⟨by rw [hts.1], ihmap⟩

/-- `setBands` writes key fields determined by name and ratio alone. -/
theorem setBands_key_congr (bte : ℚ) :
    ∀ (csa csb : List Commodity),
      csa.map (fun c => (c.name, c.base_ratio))
        = csb.map (fun c => (c.name, c.base_ratio)) →
      (csa.map (setBands bte)).map commodityKey
        = (csb.map (setBands bte)).map commodityKey := by
  intro csa
  induction csa with
  | nil =>
    intro csb h
    have hb : csb = [] := List.map_eq_nil_iff.mp h.symm
    rw [hb]
  | cons ca resta ih =>
    intro csb h
    cases csb with
    | nil => simp at h
    | cons cb restb =>
      simp only [List.map_cons, List.cons.injEq, Prod.mk.injEq] at h
      obtain ⟨⟨hname, hratio⟩, hrest⟩ := h
      simp only [List.map_cons, List.cons.injEq]
      refine ⟨?_, ih restb hrest⟩
      unfold setBands commodityKey
      dsimp only
      rw [hname, hratio]

/-- Amended C4: two generator calls on sessions with equal team names,
equal commodity names and ratios, and target hints agreeing both as
`int(target)` (the seed component) and as `round(target / BASE_PRICE_RS)`
(the allocation size) succeed and produce identical `(name, holdings)`
ledgers and equal common values — for *any* two starting states of the
process-wide random source, because each call reseeds that shared source
from its inputs before drawing. -/
theorem generator_determinism (R : RandomModule) (gs1 gs2 : GameState)
    (rng1 rng2 : R.St) (t1 t2 : ℚ)
    (hc1 : gs1.commodities ≠ []) (hb1 : gs1.base_commodity ≠ "")
    (hb2 : gs2.base_commodity ≠ "") (ht1 : gs1.teams ≠ [])
    (hcomm : gs1.commodities.map (fun c => (c.name, c.base_ratio))
        = gs2.commodities.map (fun c => (c.name, c.base_ratio)))
    (hteams : gs1.teams.map (fun t => t.name) = gs2.teams.map (fun t => t.name))
    (htrunc : pyTrunc t1 = pyTrunc t2)
    (hround : pyRound (t1 / BASE_PRICE_RS) = pyRound (t2 / BASE_PRICE_RS)) :
    ∃ o1 o2 : GameState × R.St × ℚ,
      generate_initial_portfolios_with_ranges R gs1 rng1 t1 = Except.ok o1 ∧
      generate_initial_portfolios_with_ranges R gs2 rng2 t2 = Except.ok o2 ∧
      o1.1.teams.map (fun t => (t.name, t.holdings))
        = o2.1.teams.map (fun t => (t.name, t.holdings)) ∧
      o1.2.2 = o2.2.2 := by
  have hc2 : gs2.commodities ≠ [] := by
    intro hnil
    apply hc1
    apply List.map_eq_nil_iff.mp
    rw [hcomm, hnil]
    rfl
  have ht2 : gs2.teams ≠ [] := by
    intro hnil
    apply ht1
    apply List.map_eq_nil_iff.mp
    rw [hteams, hnil]
    rfl
  have hN : gs1.commodities.length = gs2.commodities.length := by
    have h := congrArg List.length hcomm
    simpa using h
  have hT : gs1.teams.length = gs2.teams.length := by
    have h := congrArg List.length hteams
    simpa using h
  unfold generate_initial_portfolios_with_ranges
  rw [if_neg hc1, if_neg hb1, if_neg ht1, if_neg hc2, if_neg hb2, if_neg ht2]
  dsimp only
  set N1 : ℕ := gs1.commodities.length with hN1
  set N2 : ℕ := gs2.commodities.length with hN2
  set S01 := pyRound (t1 / BASE_PRICE_RS) with hS01
  set S02 := pyRound (t2 / BASE_PRICE_RS) with hS02
  set S1 : ℤ := if S01 < (N1 : ℤ) * 3 then (N1 : ℤ) * 3 else S01 with hS1
  set S2 : ℤ := if S02 < (N2 : ℤ) * 3 then (N2 : ℤ) * 3 else S02 with hS2
  set bte1 : ℚ := (S1 : ℚ) / (N1 : ℚ) with hbte1
  set bte2 : ℚ := (S2 : ℚ) / (N2 : ℚ) with hbte2
  have heqN : N1 = N2 := hN
  have heqS0 : S01 = S02 := hround
  have heqS : S1 = S2 := by
    rw [hS1, hS2, heqN, heqS0]
  have heqbte : bte1 = bte2 := by
    rw [hbte1, hbte2, heqN, heqS]
  set cs21 := gs1.commodities.map (setBands bte1) with hcs21
  set cs22 := gs2.commodities.map (setBands bte2) with hcs22
  have heqkey : cs21.map commodityKey = cs22.map commodityKey := by
    rw [hcs21, hcs22, heqbte]
    exact setBands_key_congr bte2 _ _ hcomm
  have heqlower : (cs21.map (fun c =>
      c.alloc_min_units.fdiv (max 1 c.base_ratio))).sum
      = (cs22.map (fun c => c.alloc_min_units.fdiv (max 1 c.base_ratio))).sum := by
    rw [map_key_congr _ (fun ca cb hk => by
      obtain ⟨-, hr, ha, -, -, -⟩ := commodityKey_fields hk
      rw [hr, ha]) cs21 cs22 heqkey]
  have hequpper : (cs21.map (fun c =>
      c.alloc_max_units.fdiv (max 1 c.base_ratio))).sum
      = (cs22.map (fun c => c.alloc_max_units.fdiv (max 1 c.base_ratio))).sum := by
    rw [map_key_congr _ (fun ca cb hk => by
      obtain ⟨-, hr, -, ha, -, -⟩ := commodityKey_fields hk
      rw [hr, ha]) cs21 cs22 heqkey]
  have heqslots : baseUnitSlots cs21 = baseUnitSlots cs22 :=
    baseUnitSlots_key_congr cs21 cs22 heqkey
  have heqseed : R.seed gs1.teams.length N1 (pyTrunc t1)
      = R.seed gs2.teams.length N2 (pyTrunc t2) := by
    rw [hT, heqN, htrunc]
  refine ⟨_, _, rfl, rfl, ?_, ?_⟩
  · dsimp only
    rw [heqlower, hequpper, heqS, heqslots, heqseed]
    exact (allocTeams_key_congr R cs21 cs22 heqkey _ _
      gs1.teams gs2.teams hteams _).1
  · dsimp only
    rw [heqlower, hequpper, heqS]

/-- The original C4 wording is refuted: targets 4500 and 4500.2 agree as
`int(target)` (the only target component in the seed) and as
`round(target)`, yet the allocation sizes differ because the pipeline
consumes `round(target / BASE_PRICE_RS)` (4 versus 5 after banker's
rounding), so the single team ends with 4 units in one run and 5 in the
other; and the run moves the process-wide random state, so the source is
not private. -/
theorem generator_hint_dependence :
    pyTrunc (4500 : ℚ) = pyTrunc (4500.2 : ℚ) ∧
    pyRound (4500 : ℚ) = pyRound (4500.2 : ℚ) ∧
    generatedHolding takeSampler gsOne ((0 : ℕ) : takeSampler.St) 4500 "T1" "A" = 4 ∧
    generatedHolding takeSampler gsOne ((0 : ℕ) : takeSampler.St) 4500.2 "T1" "A" = 5 ∧
    generatedRandState takeSampler gsOne ((0 : ℕ) : takeSampler.St) 4500
      ≠ ((0 : ℕ) : takeSampler.St) := by
  refine ⟨?_, ?_, ?_, ?_, ?_⟩
  · norm_num [pyTrunc]
  · norm_num [pyRound]
  · norm_num [generatedHolding, generate_initial_portfolios_with_ranges,
      gsOne, pyTrunc, pyRound, BASE_PRICE_RS, setBands, baseUnitSlots,
      capacityOf, allocTeams, allocOne, applyPicks, clampHoldings, alSet,
      alGetD, ratioOf, findCommodity, takeSampler, getTeamHolding, Int.fdiv]
    rw [if_neg (by decide : ¬("A" = ""))]
    simp [takeSampler, alGetD]
  · norm_num [generatedHolding, generate_initial_portfolios_with_ranges,
      gsOne, pyTrunc, pyRound, BASE_PRICE_RS, setBands, baseUnitSlots,
      capacityOf, allocTeams, allocOne, applyPicks, clampHoldings, alSet,
      alGetD, ratioOf, findCommodity, takeSampler, getTeamHolding, Int.fdiv]
    rw [if_neg (by decide : ¬("A" = ""))]
    simp [takeSampler, alGetD]
  · norm_num [generatedRandState, generate_initial_portfolios_with_ranges,
      gsOne, pyTrunc, pyRound, BASE_PRICE_RS, setBands, baseUnitSlots,
      capacityOf, allocTeams, allocOne, applyPicks, clampHoldings, alSet,
      alGetD, ratioOf, findCommodity, takeSampler, Int.fdiv]
    rw [if_neg (by decide : ¬("A" = ""))]
    simp [takeSampler]

/-- Witness for the amended determinism: two runs on the one-team session
from different starting random states (0 and 77, as after interleaved
random-consuming calls) both succeed with identical ledgers and values. -/
theorem generator_determinism_witness :
    ∃ o1 o2 : GameState × takeSampler.St × ℚ,
      generate_initial_portfolios_with_ranges takeSampler gsOne
        ((0 : ℕ) : takeSampler.St) 4500 = Except.ok o1 ∧
      generate_initial_portfolios_with_ranges takeSampler gsOne
        ((77 : ℕ) : takeSampler.St) 4500 = Except.ok o2 ∧
      o1.1.teams.map (fun t => (t.name, t.holdings))
        = o2.1.teams.map (fun t => (t.name, t.holdings)) ∧
      o1.2.2 = o2.2.2 :=
  generator_determinism takeSampler gsOne gsOne
    ((0 : ℕ) : takeSampler.St) ((77 : ℕ) : takeSampler.St) 4500 4500
    (by decide) (by decide) (by decide) (by decide) rfl rfl rfl rfl

end Barter
